import Mathlib

/-!
Verification of the polyline-fitting core (`PolylineFitting.cpp`, whose
class is declared in `src/cpp/Example.hpp`) and the fitting utilities
(`FittingUtilsImpl.hpp`).

The bit-image buffer is `PolylineFitting::BitImage` (`Example.hpp` lines
61-176): a `std::vector<uint8_t>` of `m_rows * m_cols` bits addressed
row-major, with `find(r, c) = begin() + m_cols * r + c`, the inverse
`coords(px) = (dist / m_cols, dist % m_cols)`, and `section` enumerating a
rectangular sub-block row by row.  Because `coords` and `find` are mutually
inverse, a pixel locator (a `BitImage::const_iterator`) is represented here
by its numeric identity, the coordinate pair `(r, c)`; iterator equality in
the source becomes equality of coordinate pairs, and the
`vector<uint8_t>` contents become the predicate `pixel r c`.
-/

set_option maxRecDepth 10000

namespace Fitting

/-- `PolylineFitting::BitImage` (`Example.hpp` lines 61-176): the
`std::vector<uint8_t>` of `m_rows * m_cols` row-major bits, presented
through the coordinate view `pixel r c`, which stands for
`*find(r, c) = *(begin() + m_cols * r + c)`; `m_rows` and `m_cols` are the
`rows`/`cols` fields.  `pixel` is total, but the code only ever reads
in-bounds indices. -/
structure BitImage where
  rows : Int
  cols : Int
  pixel : Int → Int → Bool

/-- The integers `0, 1, …, n-1` (empty for `n ≤ 0`). -/
def rangeI (n : Int) : List Int := (List.range n.toNat).map fun k : Nat => (k : Int)

/-- `BitImage::section(r0, c0, rows, cols)` (`Example.hpp` lines 132-168):
the double loop `for (r = r0; r < r0 + rows; ++r) for (c = c0; c < c0 + cols;
++c) pixels.emplace_back(begin() + m_cols * r + c)` — the locators of the
rectangular section in row-major order, empty when `rows ≤ 0` or
`cols ≤ 0`. -/
def sectPx (r0 c0 nR nC : Int) : List (Int × Int) :=
  (rangeI nR).flatMap fun dr => (rangeI nC).map fun dc => (r0 + dr, c0 + dc)

theorem mem_rangeI {n k : Int} : k ∈ rangeI n ↔ 0 ≤ k ∧ k < n := by
  simp only [rangeI, List.mem_map, List.mem_range]
  constructor
  · rintro ⟨m, hm, rfl⟩
    omega
  · rintro ⟨h0, h1⟩
    exact ⟨k.toNat, by omega, by omega⟩

theorem mem_sectPx {p : Int × Int} {r0 c0 nR nC : Int} :
    p ∈ sectPx r0 c0 nR nC ↔
      r0 ≤ p.1 ∧ p.1 < r0 + nR ∧ c0 ≤ p.2 ∧ p.2 < c0 + nC := by
  simp only [sectPx, List.mem_flatMap, List.mem_map, mem_rangeI]
  constructor
  · rintro ⟨dr, hdr, dc, hdc, rfl⟩
    simp only
    omega
  · rintro ⟨h1, h2, h3, h4⟩
    refine ⟨p.1 - r0, by omega, p.2 - c0, by omega, ?_⟩
    rw [Prod.mk.injEq]
    omega

theorem mem_sectPx' {r c r0 c0 nR nC : Int} :
    (r, c) ∈ sectPx r0 c0 nR nC ↔
      r0 ≤ r ∧ r < r0 + nR ∧ c0 ≤ c ∧ c < c0 + nC :=
  mem_sectPx

theorem countP_lt_of_mem {α : Type} {p q : α → Bool} :
    ∀ (l : List α), (∀ a ∈ l, p a = true → q a = true) →
      ∀ a ∈ l, q a = true → p a ≠ true → l.countP p < l.countP q
  | [], _, a, ha, _, _ => by cases ha
  | b :: l, hpq, a, ha, hqa, hpa => by
    rw [List.countP_cons, List.countP_cons]
    rcases List.mem_cons.mp ha with rfl | ha'
    · have h1 : l.countP p ≤ l.countP q :=
        List.countP_mono_left fun x hx => hpq x (List.mem_cons_of_mem _ hx)
      have hp : p a = false := by
        cases h : p a
        · rfl
        · exact absurd h hpa
      rw [hp, hqa]
      simp only [Bool.false_eq_true, if_false, if_true]
      omega
    · have h1 : l.countP p < l.countP q :=
        countP_lt_of_mem l (fun x hx => hpq x (List.mem_cons_of_mem _ hx)) a ha' hqa hpa
      have h2 : (if p b = true then 1 else 0) ≤ (if q b = true then 1 else 0) := by
        by_cases hb : p b = true
        · simp [hb, hpq b (List.mem_cons_self _ _) hb]
        · simp [hb]
      omega

/-! ### The thinner (`PolylineFitting::thinImage`, C subsystem of §4.C) -/

/-- Core of the per-pixel flag condition of the thinner, translated from
`PolylineFitting.cpp` lines 314-333: the neighbour values `p2..p9` have
already been read from the (pre-iteration) image. -/
def flagCore (p2 p3 p4 p5 p6 p7 p8 p9 iteration : Bool) : Bool :=
  let A : Nat :=
    (if !p2 && p3 then 1 else 0) + (if !p3 && p4 then 1 else 0) +
    (if !p4 && p5 then 1 else 0) + (if !p5 && p6 then 1 else 0) +
    (if !p6 && p7 then 1 else 0) + (if !p7 && p8 then 1 else 0) +
    (if !p8 && p9 then 1 else 0) + (if !p9 && p2 then 1 else 0)
  let B : Nat :=
    (if p2 then 1 else 0) + (if p3 then 1 else 0) + (if p4 then 1 else 0) +
    (if p5 then 1 else 0) + (if p6 then 1 else 0) + (if p7 then 1 else 0) +
    (if p8 then 1 else 0) + (if p9 then 1 else 0)
  let m1 := if iteration then p2 && p4 && p8 else p2 && p4 && p6
  let m2 := if iteration then p2 && p6 && p8 else p4 && p6 && p8
  decide (A = 1) && (decide (2 ≤ B) && decide (B ≤ 6)) && !m1 && !m2

/-- Flag condition at pixel `(r, c)`; the neighbours are read exactly as in
`PolylineFitting.cpp` lines 314-321 (`p2` north, then clockwise). -/
def flagCond (img : BitImage) (iteration : Bool) (r c : Int) : Bool :=
  flagCore (img.pixel (r-1) c) (img.pixel (r-1) (c+1)) (img.pixel r (c+1))
    (img.pixel (r+1) (c+1)) (img.pixel (r+1) c) (img.pixel (r+1) (c-1))
    (img.pixel r (c-1)) (img.pixel (r-1) (c-1)) iteration

/-- The interior working set of the thinner: `image.section(1, 1, rows-2, cols-2)`
(`PolylineFitting.cpp` line 298). -/
def interiorPx (img : BitImage) : List (Int × Int) :=
  sectPx 1 1 (img.rows - 2) (img.cols - 2)

/-- The pixels flagged during one sub-iteration (`PolylineFitting.cpp` lines
305-334): the interior pixels that are currently on and satisfy the flag
condition, all read from the unchanged pre-iteration image. -/
def flaggedPixels (img : BitImage) (iteration : Bool) : List (Int × Int) :=
  (interiorPx img).filter fun pc => img.pixel pc.1 pc.2 && flagCond img iteration pc.1 pc.2

/-- Atomic clearing of a list of pixels (`PolylineFitting.cpp` line 336). -/
def clearPixels (img : BitImage) (fl : List (Int × Int)) : BitImage :=
  { img with pixel := fun r c => img.pixel r c && !(fl.contains (r, c)) }

/-- One full sub-iteration of the thinner: flag, then clear atomically. -/
def thinStep (img : BitImage) (iteration : Bool) : BitImage :=
  clearPixels img (flaggedPixels img iteration)

/-- Number of on-pixels of the whole image. -/
def onCount (img : BitImage) : Nat :=
  (sectPx 0 0 img.rows img.cols).countP fun pc => img.pixel pc.1 pc.2

theorem mem_flaggedPixels {img : BitImage} {it : Bool} {p : Int × Int}
    (h : p ∈ flaggedPixels img it) :
    p ∈ interiorPx img ∧ img.pixel p.1 p.2 = true ∧ flagCond img it p.1 p.2 = true := by
  have h' := List.mem_filter.mp h
  exact ⟨h'.1, by simpa using h'.2⟩

theorem thinStep_pixel (img : BitImage) (it : Bool) (r c : Int) :
    (thinStep img it).pixel r c = true ↔
      img.pixel r c = true ∧ (r, c) ∉ flaggedPixels img it := by
  simp only [thinStep, clearPixels, Bool.and_eq_true, Bool.not_eq_true']
  constructor
  · rintro ⟨h1, h2⟩
    refine ⟨h1, fun hmem => ?_⟩
    rw [List.contains_eq_any_beq] at h2
    simp only [List.any_eq_false, beq_iff_eq] at h2
    exact h2 _ hmem rfl
  · rintro ⟨h1, h2⟩
    refine ⟨h1, ?_⟩
    rw [List.contains_eq_any_beq]
    simp only [List.any_eq_false, beq_iff_eq]
    intro x hx hxe
    exact h2 (hxe ▸ hx)

theorem onCount_thinStep_lt (img : BitImage) (it : Bool)
    (h : flaggedPixels img it ≠ []) : onCount (thinStep img it) < onCount img := by
  obtain ⟨a, ha⟩ := List.exists_mem_of_ne_nil _ h
  have hint := mem_flaggedPixels ha
  have hrows : (thinStep img it).rows = img.rows := rfl
  have hcols : (thinStep img it).cols = img.cols := rfl
  unfold onCount
  rw [hrows, hcols]
  refine countP_lt_of_mem _ ?_ a ?_ hint.2.1 ?_
  · intro x _ hx
    exact ((thinStep_pixel img it x.1 x.2).mp hx).1
  · obtain ⟨ar, ac⟩ := a
    have := mem_sectPx'.mp hint.1
    exact mem_sectPx'.mpr (by omega)
  · intro hx
    exact absurd ha ((thinStep_pixel img it a.1 a.2).mp hx).2

/-- The thinner loop (`PolylineFitting.cpp` lines 300-340): repeat
sub-iterations, flipping the phase each time, until a sub-iteration flags
nothing. -/
def thinLoop (img : BitImage) (iteration : Bool) : BitImage :=
  if h : flaggedPixels img iteration = [] then img
  else thinLoop (thinStep img iteration) (!iteration)
termination_by onCount img
decreasing_by exact onCount_thinStep_lt img iteration h

/-- `PolylineFitting::thinImage`: the loop starts with `iteration = false`
(sub-iteration 0). -/
def thinImage (img : BitImage) : BitImage := thinLoop img false

/-! ### Spec-side formulation of the flag condition (spec §4.C) -/

/-- Spec §4.C: the neighbourhood of `P1`, labelled clockwise from the north:
`P2 = (r-1,c)`, `P3 = (r-1,c+1)`, …, `P9 = (r-1,c-1)`. -/
def neighborList (img : BitImage) (r c : Int) : List Bool :=
  [img.pixel (r-1) c, img.pixel (r-1) (c+1), img.pixel r (c+1),
   img.pixel (r+1) (c+1), img.pixel (r+1) c, img.pixel (r+1) (c-1),
   img.pixel r (c-1), img.pixel (r-1) (c-1)]

/-- Spec §4.C: `A(P1)` is the number of 0→1 transitions around the cycle
`P2, P3, …, P9, P2`. -/
def transitionsA (l : List Bool) : Nat :=
  (l.zip (l.rotate 1)).countP fun ab => !ab.1 && ab.2

/-- Spec-side core of the flag condition, stated on the neighbour values. -/
def specFlagCore (p2 p3 p4 p5 p6 p7 p8 p9 iteration : Bool) : Prop :=
  transitionsA [p2, p3, p4, p5, p6, p7, p8, p9] = 1 ∧
  2 ≤ [p2, p3, p4, p5, p6, p7, p8, p9].countP (fun b => b) ∧
  [p2, p3, p4, p5, p6, p7, p8, p9].countP (fun b => b) ≤ 6 ∧
  (if iteration then p2 && p4 && p8 else p2 && p4 && p6) = false ∧
  (if iteration then p2 && p6 && p8 else p4 && p6 && p8) = false

instance (p2 p3 p4 p5 p6 p7 p8 p9 it : Bool) :
    Decidable (specFlagCore p2 p3 p4 p5 p6 p7 p8 p9 it) := by
  unfold specFlagCore
  infer_instance

/-- Spec §4.C flag condition at a pixel: `A(P1) = 1`, `2 ≤ B(P1) ≤ 6`,
`m1 = 0`, `m2 = 0`, with the sub-iteration-dependent `m1`, `m2` formulas. -/
def specFlagged (img : BitImage) (iteration : Bool) (r c : Int) : Prop :=
  specFlagCore (img.pixel (r-1) c) (img.pixel (r-1) (c+1)) (img.pixel r (c+1))
    (img.pixel (r+1) (c+1)) (img.pixel (r+1) c) (img.pixel (r+1) (c-1))
    (img.pixel r (c-1)) (img.pixel (r-1) (c-1)) iteration

theorem flagCore_iff_spec (p2 p3 p4 p5 p6 p7 p8 p9 it : Bool) :
    flagCore p2 p3 p4 p5 p6 p7 p8 p9 it = true ↔
      specFlagCore p2 p3 p4 p5 p6 p7 p8 p9 it := by
  revert p2 p3 p4 p5 p6 p7 p8 p9 it
  decide

/-- C1: in every sub-iteration, an interior on-pixel `P1` is flagged iff
`A(P1) = 1`, `2 ≤ B(P1) ≤ 6`, `m1 = 0` and `m2 = 0` (with the
sub-iteration-dependent formulas for `m1`, `m2`), all neighbour values read
from the unchanged pre-iteration image; and the flagged pixels are exactly
the ones cleared, atomically, after all flags have been computed. -/
theorem thinner_flag_iff (img : BitImage) (iteration : Bool) :
    (∀ r c, (r, c) ∈ flaggedPixels img iteration ↔
      (1 ≤ r ∧ r ≤ img.rows - 2 ∧ 1 ≤ c ∧ c ≤ img.cols - 2 ∧
        img.pixel r c = true ∧ specFlagged img iteration r c)) ∧
    (∀ r c, (thinStep img iteration).pixel r c = true ↔
      (img.pixel r c = true ∧ (r, c) ∉ flaggedPixels img iteration)) := by
  constructor
  · intro r c
    rw [flaggedPixels, List.mem_filter]
    rw [show ((r, c) ∈ interiorPx img ↔
        1 ≤ r ∧ r ≤ img.rows - 2 ∧ 1 ≤ c ∧ c ≤ img.cols - 2) from
      ⟨fun h => by have := mem_sectPx'.mp h; omega,
       fun h => mem_sectPx'.mpr (by omega)⟩]
    rw [Bool.and_eq_true]
    rw [show (flagCond img iteration r c = true ↔ specFlagged img iteration r c) from
      flagCore_iff_spec _ _ _ _ _ _ _ _ _]
    tauto
  · exact thinStep_pixel img iteration

/-! ### Termination of the thinner (C7) -/

/-- `n` unconditional sub-iterations of the thinner, with the phase flipping
each time (the phase flips whether or not flags were produced). -/
def stepN : Nat → BitImage × Bool → BitImage × Bool
  | 0, s => s
  | n + 1, s => stepN n (thinStep s.1 s.2, !s.2)

theorem thinLoop_reaches :
    ∀ (fuel : Nat) (img : BitImage) (it : Bool), onCount img ≤ fuel →
      ∃ n, n ≤ onCount img ∧
        flaggedPixels (stepN n (img, it)).1 (stepN n (img, it)).2 = [] ∧
        thinLoop img it = (stepN n (img, it)).1
  | fuel, img, it, hfuel => by
    by_cases h : flaggedPixels img it = []
    · exact ⟨0, Nat.zero_le _, h, by rw [thinLoop, dif_pos h]; rfl⟩
    · have hlt := onCount_thinStep_lt img it h
      match fuel, hfuel with
      | 0, hfuel => omega
      | fuel + 1, hfuel =>
        obtain ⟨n, hn, h1, h2⟩ :=
          thinLoop_reaches fuel (thinStep img it) (!it) (by omega)
        exact ⟨n + 1, by omega, h1, by rw [thinLoop, dif_neg h]; exact h2⟩

/-- C7: the thinner terminates: every sub-iteration either flags nothing (and
the loop stops exactly then) or strictly decreases the number of on-pixels;
no step ever turns a bit from 0 to 1; and for every image the loop reaches,
within `onCount img` sub-iterations, a state whose sub-iteration flags
nothing, at which `thinImage` returns. -/
theorem thinner_terminates :
    (∀ img it, flaggedPixels img it = [] ∨ onCount (thinStep img it) < onCount img) ∧
    (∀ img it r c, (thinStep img it).pixel r c = true → img.pixel r c = true) ∧
    (∀ img : BitImage, ∃ n, n ≤ onCount img ∧
      flaggedPixels (stepN n (img, false)).1 (stepN n (img, false)).2 = [] ∧
      thinImage img = (stepN n (img, false)).1) := by
  refine ⟨fun img it => ?_, fun img it r c h => ?_, fun img => ?_⟩
  · by_cases h : flaggedPixels img it = []
    · exact Or.inl h
    · exact Or.inr (onCount_thinStep_lt img it h)
  · exact ((thinStep_pixel img it r c).mp h).1
  · exact thinLoop_reaches (onCount img) img false le_rfl

/-! ### Split-candidate selection of the recursive tracer (§4.E, C6) -/

/-- Number of on-pixels of a section (`std::count_if` over a section view). -/
def countOn (img : BitImage) (r0 c0 nR nC : Int) : Nat :=
  (sectPx r0 c0 nR nC).countP fun pc => img.pixel pc.1 pc.2

/-- The alternating split offset (`PolylineFitting.cpp` line 87):
`static_cast<int32_t>(std::pow(-1, i)) * (i + 1) / 2` with C++ (truncating)
integer division; the sequence of offsets is `0, -1, +1, -2, +2, …`. -/
def offsetOf (i : Nat) : Int :=
  ((if i % 2 = 0 then (1 : Int) else -1) * ((i : Int) + 1)).tdiv 2

/-- The split candidates examined by the loop of `PolylineFitting.cpp`
lines 84-103, in examination order: `x0 + dim / 2 + offset(i)` for
`i = 0, …, dim - 5`. -/
def splitCands (x0 dim : Int) : List Int :=
  (List.range (dim - 4).toNat).map fun i => x0 + dim / 2 + offsetOf i

/-- `nOnPixels < minOn` with `minOn` still at its `int64` sentinel modelled
as `none`. -/
def ltOpt (n : Nat) : Option Nat → Bool
  | none => true
  | some m => decide (n < m)

/-- `minOn = std::min(minOn, nOnPixels)` with the sentinel as `none`. -/
def minOpt : Option Nat → Nat → Option Nat
  | none, n => some n
  | some m, n => some (min m n)

/-- The split-selection loop of `PolylineFitting.cpp` lines 84-103: keep the
candidate with strictly smaller on-count (ties keep the earlier), track the
running minimum, and break as soon as the minimum reaches zero. -/
def splitGo (lc : Int → Nat) : List Int → Int → Option Nat → Int
  | [], best, _ => best
  | cand :: rest, best, minOn =>
    let n := lc cand
    let best' := if ltOpt n minOn then cand else best
    let minOn' := minOpt minOn n
    if minOn' = some 0 then best' else splitGo lc rest best' minOn'

/-- `rSplit` as computed for a row split (`rows >= cols` branch). -/
def rowSplitOf (img : BitImage) (r0 c0 rows cols : Int) : Int :=
  splitGo (fun r => countOn img r c0 1 cols) (splitCands r0 rows) (-1) none

/-- `cSplit` as computed for a column split (`rows < cols` branch). -/
def colSplitOf (img : BitImage) (r0 c0 rows cols : Int) : Int :=
  splitGo (fun c => countOn img r0 c rows 1) (splitCands c0 cols) (-1) none

theorem offsetOf_eq (i : Nat) :
    offsetOf i = if i % 2 = 0 then ((i : Int) + 1) / 2 else -(((i : Int) + 1) / 2) := by
  unfold offsetOf
  by_cases h : i % 2 = 0
  · rw [if_pos h, if_pos h, one_mul, Int.tdiv_eq_ediv (by omega) (by omega)]
  · rw [if_neg h, if_neg h, neg_one_mul, Int.neg_tdiv,
      Int.tdiv_eq_ediv (by omega) (by omega)]

theorem offsetOf_bounds {dim : Int} (hdim : 5 ≤ dim) {i : Nat}
    (hi : (i : Int) < dim - 4) :
    2 ≤ dim / 2 + offsetOf i ∧ dim / 2 + offsetOf i ≤ dim - 3 := by
  rw [offsetOf_eq]
  by_cases h : i % 2 = 0
  · rw [if_pos h]
    omega
  · rw [if_neg h]
    omega

theorem splitCands_bounds {x0 dim : Int} (hdim : 5 ≤ dim) {c : Int}
    (hc : c ∈ splitCands x0 dim) : x0 + 2 ≤ c ∧ c ≤ x0 + dim - 3 := by
  obtain ⟨i, hi, rfl⟩ := List.mem_map.mp hc
  rw [List.mem_range] at hi
  have hb := offsetOf_bounds hdim (i := i) (by omega)
  omega

theorem splitGo_mem_or (lc : Int → Nat) :
    ∀ (cands : List Int) (b : Int) (m : Option Nat),
      splitGo lc cands b m ∈ cands ∨ splitGo lc cands b m = b
  | [], b, m => Or.inr rfl
  | c :: rest, b, m => by
    simp only [splitGo]
    split
    · split
      · exact Or.inl (List.mem_cons_self _ _)
      · exact Or.inr rfl
    · rcases splitGo_mem_or lc rest (if ltOpt (lc c) m then c else b) (minOpt m (lc c)) with h | h
      · exact Or.inl (List.mem_cons_of_mem _ h)
      · rw [h]
        split
        · exact Or.inl (List.mem_cons_self _ _)
        · exact Or.inr rfl

theorem splitGo_mem_of_none (lc : Int → Nat) (c : Int) (rest : List Int) (b : Int) :
    splitGo lc (c :: rest) b none ∈ c :: rest := by
  simp only [splitGo, ltOpt, if_true]
  split
  · exact List.mem_cons_self _ _
  · rcases splitGo_mem_or lc rest c (minOpt none (lc c)) with h | h
    · exact List.mem_cons_of_mem _ h
    · rw [h]
      exact List.mem_cons_self _ _

/-- Pixel value at a locator. -/
def pixAt (img : BitImage) (pc : Int × Int) : Bool := img.pixel pc.1 pc.2

/-- The frame of a section, clockwise from the top-left corner
(`PolylineFitting.cpp` lines 124-142): top row without its last column,
right column without its bottom pixel, bottom row (without its leftmost
pixel) reversed, left column (without its top pixel) reversed. -/
def frameOf (r0 c0 rows cols : Int) : List (Int × Int) :=
  sectPx r0 c0 1 (cols - 1) ++
    sectPx r0 (c0 + cols - 1) (rows - 1) 1 ++
    (sectPx (r0 + rows - 1) (c0 + 1) 1 (cols - 1)).reverse ++
    (sectPx (r0 + 1) c0 (rows - 1) 1).reverse

/-- `std::find_if` from position `s` of `l`, as an index (`l.length` plays
the role of the past-the-end iterator). -/
def findIdxFrom {α : Type} (p : α → Bool) (l : List α) (s : Nat) : Nat :=
  s + (l.drop s).findIdx p

theorem le_findIdxFrom {α : Type} (p : α → Bool) (l : List α) (s : Nat) :
    s ≤ findIdxFrom p l s := Nat.le_add_right _ _

theorem findIdxFrom_le_length {α : Type} (p : α → Bool) (l : List α) (s : Nat)
    (h : s ≤ l.length) : findIdxFrom p l s ≤ l.length := by
  unfold findIdxFrom
  have h1 : (l.drop s).findIdx p ≤ (l.drop s).length := List.findIdx_le_length p
  have h2 := List.length_drop s l
  omega

theorem pix_findIdxFrom {α : Type} {p : α → Bool} {l : List α} {s : Nat} (d : α)
    (h : findIdxFrom p l s < l.length) :
    p (l.getD (findIdxFrom p l s) d) = true := by
  have hs : s ≤ l.length := le_trans (le_findIdxFrom p l s) (le_of_lt h)
  have hj : (l.drop s).findIdx p < (l.drop s).length := by
    have h2 := List.length_drop s l
    unfold findIdxFrom at h
    omega
  have hp := List.findIdx_of_getElem?_eq_some (List.getElem?_eq_getElem hj)
  rw [List.getElem_drop] at hp
  rw [findIdxFrom, List.getD_eq_getElem l d (by unfold findIdxFrom at h; exact h)]
  exact hp

/-- After finding an on-pixel, the next off-search starts strictly later. -/
theorem findIdxFrom_off_gt {pix : (Int × Int) → Bool} {l : List (Int × Int)} {s : Nat}
    (h : findIdxFrom pix l s < l.length) :
    findIdxFrom pix l s + 1 ≤ findIdxFrom (fun a => !pix a) l (findIdxFrom pix l s) := by
  set i := findIdxFrom pix l s with hi
  have hp : pix (l.getD i (0, 0)) = true := pix_findIdxFrom (0, 0) h
  rw [List.getD_eq_getElem l (0, 0) h] at hp
  have hd : l.drop i = l[i] :: l.drop (i + 1) := List.drop_eq_getElem_cons h
  unfold findIdxFrom
  rw [hd, List.findIdx_cons]
  rw [hp]
  simp only [Bool.not_true, cond_false]
  omega

/-- The frame-scan do-while loop of `PolylineFitting.cpp` lines 160-170, with
iterators replaced by indices into the rotated frame `rot`; `off` is the
current `pxOff` position.  The loop runs at most `rot.length + 1` times (each
iteration strictly advances `pxOff`, or exits), so the structural fuel
argument, instantiated with `rot.length + 1` in `scanSegs`, is not a
semantic restriction. -/
def scanSegsF (pix : (Int × Int) → Bool) (rot : List (Int × Int))
    (center : Int × Int) : Nat → Nat → List (List (Int × Int))
  | 0, _ => []
  | fuel + 1, off =>
    let onI := findIdxFrom pix rot off
    let offI := findIdxFrom (fun pc => !pix pc) rot onI
    let mid := rot.getD (onI + (offI - onI) / 2) (0, 0)
    if onI < rot.length then [mid, center] :: scanSegsF pix rot center fuel offI
    else []

/-- The segments emitted by the frame-scan loop, starting from `pxOff`. -/
def scanSegs (pix : (Int × Int) → Bool) (rot : List (Int × Int))
    (center : Int × Int) (off : Nat) : List (List (Int × Int)) :=
  scanSegsF pix rot center (rot.length + 1) off

/-- The sequence of `pxMid` positions read by the frame-scan loop
(`*(pxOn + (pxOff - pxOn) / 2)` is computed on every iteration, including
the final one). -/
def scanAccsF (pix : (Int × Int) → Bool) (rot : List (Int × Int)) :
    Nat → Nat → List Nat
  | 0, _ => []
  | fuel + 1, off =>
    let onI := findIdxFrom pix rot off
    let offI := findIdxFrom (fun pc => !pix pc) rot onI
    (onI + (offI - onI) / 2) ::
      (if onI < rot.length then scanAccsF pix rot fuel offI else [])

/-- All `pxMid` read positions of the frame-scan loop. -/
def scanAccs (pix : (Int × Int) → Bool) (rot : List (Int × Int)) (off : Nat) :
    List Nat :=
  scanAccsF pix rot (rot.length + 1) off

/-- Manhattan distance used by the canvas sort comparator
(`PolylineFitting.cpp` lines 183-190). -/
def manhattan (a b : Int × Int) : Int := |a.1 - b.1| + |a.2 - b.2|

/-- 3×3-neighbourhood on-count ("convolution") around a pixel
(`PolylineFitting.cpp` lines 199-201). -/
def convAt (img : BitImage) (pc : Int × Int) : Nat :=
  countOn img (pc.1 - 1) (pc.2 - 1) 3 3

/-- The intersection-search loop of `PolylineFitting.cpp` lines 194-210:
first candidate (in sorted order) whose convolution strictly exceeds the
running maximum wins; break as soon as the maximum reaches 5.  The
uninitialised `pxIntersection` iterator is modelled by the dummy `(0, 0)`
(the first loop iteration always overwrites it, since any count exceeds the
initial maximum `-1`). -/
def pickIntersection (img : BitImage) : List (Int × Int) → (Int × Int) → Int → (Int × Int)
  | [], best, _ => best
  | px :: rest, best, maxConv =>
    let conv : Int := (convAt img px : Int)
    let best' := if maxConv < conv then px else best
    let maxConv' := max maxConv conv
    if 5 ≤ maxConv' then best' else pickIntersection img rest best' maxConv'

/-- The intersection estimation of `PolylineFitting.cpp` lines 180-210:
sort the canvas (section minus its 1-pixel border) by Manhattan distance to
the centre and pick the best 3×3 convolution with early stopping.
`std::sort` leaves the order of equal-distance pixels unspecified; it is
modelled by a stable insertion sort on the row-major canvas enumeration. -/
def estimateIntersection (img : BitImage) (r0 c0 rows cols : Int)
    (center : Int × Int) : Int × Int :=
  let canvas := sectPx (r0 + 1) (c0 + 1) (rows - 2) (cols - 2)
  let sorted := canvas.insertionSort fun a b => manhattan a center ≤ manhattan b center
  pickIntersection img sorted (0, 0) (-1)

/-- The segments produced by the frame-scan loop of `fitSegments`: the frame
is rotated to start at the first off-pixel (`std::rotate`), and the scan
starts at `pxOff`, the retained (stale) index of that first off-pixel. -/
def scannedSegments (img : BitImage) (r0 c0 rows cols : Int) :
    List (List (Int × Int)) :=
  scanSegs (pixAt img)
    ((frameOf r0 c0 rows cols).rotate
      ((frameOf r0 c0 rows cols).findIdx fun pc => !pixAt img pc))
    (r0 + rows / 2, c0 + cols / 2)
    ((frameOf r0 c0 rows cols).findIdx fun pc => !pixAt img pc)

/-- `PolylineFitting::fitSegments` (lines 120-219): collect the clockwise
frame, return nothing if it is all-on or all-off, rotate it to start at the
first off-pixel, scan it for on-runs emitting `[mid, center]` segments,
then post-process: exactly two segments collapse to one straight polyline;
otherwise every segment's second endpoint is replaced by the estimated
intersection. -/
def fitSegments (img : BitImage) (r0 c0 rows cols : Int) :
    List (List (Int × Int)) :=
  let frame := frameOf r0 c0 rows cols
  let pix := pixAt img
  if (frame.all fun pc => pix pc) ∨ (frame.all fun pc => !pix pc) then []
  else
    let center := (r0 + rows / 2, c0 + cols / 2)
    let segments := scannedSegments img r0 c0 rows cols
    if segments.length = 2 then
      [[segments.headI.headI, segments.getLastI.headI]]
    else
      let pxI := estimateIntersection img r0 c0 rows cols center
      segments.map fun pl => pl.dropLast ++ [pxI]

/-! ### The frame scan as maximal on-runs (spec §4.D steps 3-4, C4) -/

theorem drop_findIdx_eq_dropWhile {α : Type} (p : α → Bool) :
    ∀ t : List α, t.drop (t.findIdx p) = t.dropWhile fun a => !p a
  | [] => rfl
  | a :: t => by
    rw [List.findIdx_cons, List.dropWhile_cons]
    cases hp : p a
    · simpa [hp] using drop_findIdx_eq_dropWhile p t
    · simp [hp]

theorem take_findIdx_eq_takeWhile {α : Type} (p : α → Bool) :
    ∀ t : List α, t.take (t.findIdx p) = t.takeWhile fun a => !p a
  | [] => rfl
  | a :: t => by
    rw [List.findIdx_cons, List.takeWhile_cons]
    cases hp : p a
    · simpa [hp] using take_findIdx_eq_takeWhile p t
    · simp [hp]

theorem length_takeWhile_eq_findIdx {α : Type} (p : α → Bool) (t : List α) :
    (t.takeWhile fun a => !p a).length = t.findIdx p := by
  rw [← take_findIdx_eq_takeWhile, List.length_take]
  have : t.findIdx p ≤ t.length := List.findIdx_le_length p
  omega

/-- Spec-side §4.D step 4: the maximal runs of `p`-satisfying elements of a
list, in order. -/
def onRuns {α : Type} (p : α → Bool) : List α → List (List α)
  | [] => []
  | [a] => if p a then [[a]] else []
  | a :: b :: t =>
    if p a then
      if p b then (a :: (onRuns p (b :: t)).headI) :: (onRuns p (b :: t)).tail
      else [a] :: onRuns p (b :: t)
    else onRuns p (b :: t)

/-- `onRuns` characterised through `dropWhile`/`takeWhile`: skip the non-run
prefix; the first run is the maximal `p`-prefix from the first hit. -/
theorem onRuns_eq {α : Type} (p : α → Bool) (l : List α) :
    onRuns p l =
      match l.dropWhile (fun a => !p a) with
      | [] => []
      | a :: t => (a :: t.takeWhile p) :: onRuns p (t.dropWhile p) := by
  induction l with
  | nil => rfl
  | cons a t ih =>
    cases t with
    | nil =>
      cases hp : p a <;>
        simp [onRuns, hp, List.dropWhile_cons, List.takeWhile_nil, List.dropWhile_nil]
    | cons b t' =>
      cases hp : p a
      · rw [show onRuns p (a :: b :: t') = onRuns p (b :: t') from by
          rw [onRuns]; simp [hp]]
        rw [List.dropWhile_cons, if_pos (by simp [hp])]
        exact ih
      · rw [List.dropWhile_cons, if_neg (by simp [hp])]
        show _ = (a :: (b :: t').takeWhile p) :: onRuns p ((b :: t').dropWhile p)
        cases hb : p b
        · rw [show onRuns p (a :: b :: t') = [a] :: onRuns p (b :: t') from by
            rw [onRuns]; simp [hp, hb]]
          rw [List.takeWhile_cons, if_neg (by simp [hb]),
            List.dropWhile_cons, if_neg (by simp [hb])]
        · have hr : onRuns p (b :: t') =
              (b :: t'.takeWhile p) :: onRuns p (t'.dropWhile p) := by
            rw [ih, List.dropWhile_cons, if_neg (by simp [hb])]
          rw [show onRuns p (a :: b :: t') =
              (a :: (onRuns p (b :: t')).headI) :: (onRuns p (b :: t')).tail from by
            rw [onRuns]; simp [hp, hb]]
          rw [hr]
          rw [List.takeWhile_cons, if_pos (by simp [hb]),
            List.dropWhile_cons, if_pos (by simp [hb])]
          rfl

theorem drop_findIdxFrom {α : Type} (p : α → Bool) (l : List α) (s : Nat) :
    l.drop (findIdxFrom p l s) = (l.drop s).dropWhile fun a => !p a := by
  rw [findIdxFrom, ← List.drop_drop, drop_findIdx_eq_dropWhile]

theorem getD_run (l : List (Int × Int)) (i j m : Nat) (hi : i < l.length)
    (hij : i + j < l.length) (hjm : j ≤ m) :
    l.getD (i + j) (0, 0) = (l[i] :: (l.drop (i + 1)).take m).getD j (0, 0) := by
  cases j with
  | zero =>
    rw [Nat.add_zero, List.getD_eq_getElem l _ hi]
    rfl
  | succ jj =>
    show l.getD (i + (jj + 1)) (0, 0) = ((l.drop (i + 1)).take m).getD jj (0, 0)
    rw [List.getD_eq_getElem l _ hij,
      List.getD_eq_getElem _ _ (by rw [List.length_take, List.length_drop]; omega),
      List.getElem_take, List.getElem_drop]
    congr 1
    omega

/-- The frame-scan loop emits exactly one segment per maximal on-run of the
scanned suffix `rot.drop off`, the segment's frame endpoint being the run's
pixel at offset `⌊runLength / 2⌋`. -/
theorem scanSegsF_eq_runs (pix : (Int × Int) → Bool) (center : Int × Int) :
    ∀ (fuel : Nat) (rot : List (Int × Int)) (off : Nat),
      off ≤ rot.length → rot.length + 1 ≤ fuel + off →
      scanSegsF pix rot center fuel off =
        (onRuns pix (rot.drop off)).map fun run =>
          [run.getD (run.length / 2) (0, 0), center]
  | 0, rot, off, hoff, hfuel => by omega
  | fuel + 1, rot, off, hoff, hfuel => by
    simp only [scanSegsF]
    set onI := findIdxFrom pix rot off with honI
    have hAdrop : rot.drop onI = (rot.drop off).dropWhile fun a => !pix a :=
      drop_findIdxFrom pix rot off
    by_cases h : onI < rot.length
    · rw [if_pos h]
      set offI := findIdxFrom (fun pc => !pix pc) rot onI with hoffI
      have hcons : rot.drop onI = rot[onI] :: rot.drop (onI + 1) :=
        List.drop_eq_getElem_cons h
      have hpa : pix rot[onI] = true := by
        have := pix_findIdxFrom (p := pix) (l := rot) (s := off) (0, 0) h
        rwa [List.getD_eq_getElem rot (0, 0) h] at this
      set t' := rot.drop (onI + 1) with ht'
      set k := t'.findIdx (fun pc => !pix pc) with hk
      have hkt : k ≤ t'.length := List.findIdx_le_length _
      have ht'len : t'.length = rot.length - (onI + 1) := List.length_drop _ _
      have hoffIk : offI = onI + 1 + k := by
        rw [hoffI]
        unfold findIdxFrom
        rw [hcons, List.findIdx_cons, hpa]
        simp only [Bool.not_true, cond_false]
        omega
      have hoffIle : offI ≤ rot.length := by
        rw [hoffIk]
        omega
      -- the first run of the scanned suffix
      have hrun : onRuns pix (rot.drop off) =
          (rot[onI] :: t'.takeWhile pix) :: onRuns pix (t'.dropWhile pix) := by
        rw [onRuns_eq, ← hAdrop, hcons]
      have htakelen : (t'.takeWhile pix).length = k := by
        have := length_takeWhile_eq_findIdx (fun pc => !pix pc) t'
        simpa using this
      have htake : t'.takeWhile pix = t'.take k := by
        have := take_findIdx_eq_takeWhile (fun pc => !pix pc) t'
        simpa using this.symm
      -- the midpoint access reads the run's ⌊len/2⌋ pixel
      have hmidlt : (onI + 1 + k) ≤ rot.length := by omega
      have honIge : off ≤ onI := le_findIdxFrom pix rot off
      have hmid : rot.getD (onI + (offI - onI) / 2) (0, 0) =
          (rot[onI] :: t'.takeWhile pix).getD ((rot[onI] :: t'.takeWhile pix).length / 2)
            (0, 0) := by
        rw [htake, hoffIk]
        have hlen : (rot[onI] :: List.take k t').length = 1 + k := by
          rw [List.length_cons, List.length_take]
          omega
        rw [hlen]
        rw [show (onI + 1 + k - onI) / 2 = (1 + k) / 2 from by omega]
        exact getD_run rot onI ((1 + k) / 2) k h (by omega) (by omega)
      rw [hmid, hrun, List.map_cons]
      congr 1
      have hreceq : rot.drop offI = t'.dropWhile pix := by
        rw [hoffIk, show onI + 1 + k = (onI + 1) + k from rfl, ← List.drop_drop, ← ht']
        have := drop_findIdx_eq_dropWhile (fun pc => !pix pc) t'
        rw [← hk] at this
        simpa using this
      rw [scanSegsF_eq_runs pix center fuel rot offI hoffIle (by omega), hreceq]
    · rw [if_neg h]
      have honIlen : onI = rot.length := by
        have := findIdxFrom_le_length pix rot off hoff
        omega
      have : rot.drop onI = [] := by
        rw [honIlen]
        simp
      rw [this] at hAdrop
      rw [onRuns_eq, ← hAdrop]
      rfl

/-- C4 (amended): the frame scan, which starts at the pre-rotation index of
the first off-pixel (`pxOff` is not re-anchored after `std::rotate`), emits
one segment for each maximal on-run of the suffix of the rotated frame
starting at that index, the frame endpoint being the run's pixel at offset
`⌊runLength / 2⌋`; runs of the rotated frame lying before that index are
skipped. -/
theorem frame_scan_runs_of_suffix (img : BitImage) (r0 c0 rows cols : Int) :
    scannedSegments img r0 c0 rows cols =
    (onRuns (pixAt img)
        (((frameOf r0 c0 rows cols).rotate
            ((frameOf r0 c0 rows cols).findIdx fun pc => !pixAt img pc)).drop
          ((frameOf r0 c0 rows cols).findIdx fun pc => !pixAt img pc))).map
      fun run => [run.getD (run.length / 2) (0, 0), (r0 + rows / 2, c0 + cols / 2)] := by
  unfold scannedSegments
  apply scanSegsF_eq_runs
  · rw [List.length_rotate]
    exact List.findIdx_le_length _
  · omega

/-! ### Concrete images used as counterexamples / failing inputs -/

/-- 3×3 image whose frame (clockwise) reads `1,1,0,1,0,0,0,0`: the first
off-pixel is at frame index 2, so after rotation the scan starts at index 2
and the on-run at rotated index 1 (pixel `(1,2)`) is never visited. -/
def imgC4 : BitImage :=
  ⟨3, 3, fun r c => decide ((r, c) ∈ [((0 : Int), (0 : Int)), (0, 1), (1, 2)])⟩

/-- The 3×3 cross of spec §8, scenario 1. -/
def cross3 : BitImage :=
  ⟨3, 3, fun r c => decide ((r, c) ∈ [((0 : Int), (1 : Int)), (1, 0), (1, 1), (1, 2), (2, 1)])⟩

/-- 5×5 image with a single on-run on the frame (pixel `(0,2)`) and an
interior cluster pulling the estimated intersection away from the centre. -/
def imgC3 : BitImage :=
  ⟨5, 5, fun r c => decide ((r, c) ∈ [((0 : Int), (2 : Int)), (1, 1), (1, 2), (2, 1)])⟩

/-- C4 counterexample: on `imgC4` the rotated frame has two maximal on-runs,
but the scan emits only one segment — the on-run lying before the stale
start index of the scan is skipped. -/
theorem frame_scan_skips_a_run :
    (onRuns (pixAt imgC4) (((frameOf 0 0 3 3).rotate
        ((frameOf 0 0 3 3).findIdx fun pc => !pixAt imgC4 pc)))).length = 2 ∧
    (scannedSegments imgC4 0 0 3 3).length = 1 := by
  decide

/-- C10: on the 3×3 cross the frame has 8 pixels; the mid-pixel read
positions of the scan loop are `1, 3, 5, 7, 8` — the final do-while
iteration computes `*(pxOn + (pxOff - pxOn) / 2)` with `pxOn = pxOff = end`
and reads position 8, one past the end of the frame vector. -/
theorem scan_reads_past_end :
    (frameOf 0 0 3 3).length = 8 ∧
    scanAccs (pixAt cross3) ((frameOf 0 0 3 3).rotate
        ((frameOf 0 0 3 3).findIdx fun pc => !pixAt cross3 pc))
      ((frameOf 0 0 3 3).findIdx fun pc => !pixAt cross3 pc) = [1, 3, 5, 7, 8] := by
  decide

/-! ### Intersection-estimation characterisation (C3) -/

/-- Spec-side: the canvas pixels actually examined by the intersection loop,
i.e. the sorted list truncated (inclusively) at the first pixel whose 3×3
neighbourhood has at least 5 on-pixels (the early stop). -/
def truncAtConv (img : BitImage) : List (Int × Int) → List (Int × Int)
  | [] => []
  | c :: rest => if 5 ≤ convAt img c then [c] else c :: truncAtConv img rest

/-- Spec-side update: keep the pixel with the larger convolution, the earlier
pixel winning ties. -/
def keepMax (img : BitImage) (best c : Int × Int) : Int × Int :=
  if convAt img best < convAt img c then c else best

theorem foldl_keepMax_ge (img : BitImage) :
    ∀ (l : List (Int × Int)) (b : Int × Int),
      convAt img b ≤ convAt img (l.foldl (keepMax img) b)
  | [], _ => le_rfl
  | c :: l, b => by
    rw [List.foldl_cons]
    refine le_trans ?_ (foldl_keepMax_ge img l _)
    unfold keepMax
    split
    · omega
    · exact le_rfl

theorem pickIntersection_eq_foldl (img : BitImage) :
    ∀ (rest : List (Int × Int)) (b : Int × Int), convAt img b < 5 →
      pickIntersection img rest b (convAt img b : Int) =
        (truncAtConv img rest).foldl (keepMax img) b
  | [], b, _ => rfl
  | c :: rest, b, hb => by
    simp only [pickIntersection, truncAtConv]
    by_cases hc : 5 ≤ convAt img c
    · rw [if_pos hc, if_pos (by omega), List.foldl_cons, List.foldl_nil]
      unfold keepMax
      by_cases hlt : convAt img b < convAt img c
      · rw [if_pos (by omega), if_pos hlt]
      · rw [if_neg (by omega), if_neg hlt]
    · rw [if_neg hc, if_neg (by omega), List.foldl_cons]
      by_cases hlt : convAt img b < convAt img c
      · rw [if_pos (by omega),
          show max (convAt img b : Int) (convAt img c : Int) = (convAt img c : Int) from by
            omega,
          show keepMax img b c = c from by unfold keepMax; rw [if_pos hlt]]
        exact pickIntersection_eq_foldl img rest c (by omega)
      · rw [if_neg (by omega),
          show max (convAt img b : Int) (convAt img c : Int) = (convAt img b : Int) from by
            omega,
          show keepMax img b c = b from by unfold keepMax; rw [if_neg hlt]]
        exact pickIntersection_eq_foldl img rest b hb

theorem foldl_keepMax_first_argmax (img : BitImage) :
    ∀ (l : List (Int × Int)) (b : Int × Int),
      ∃ pre post, b :: l = pre ++ (l.foldl (keepMax img) b) :: post ∧
        (∀ d ∈ pre, convAt img d < convAt img (l.foldl (keepMax img) b)) ∧
        (∀ d ∈ post, convAt img d ≤ convAt img (l.foldl (keepMax img) b))
  | [], b => ⟨[], [], rfl, by simp, by simp⟩
  | c :: l, b => by
    rw [List.foldl_cons]
    obtain ⟨pre, post, heq, hpre, hpost⟩ := foldl_keepMax_first_argmax img l (keepMax img b c)
    by_cases hlt : convAt img b < convAt img c
    · rw [show keepMax img b c = c from by unfold keepMax; rw [if_pos hlt]] at *
      refine ⟨b :: pre, post, by rw [List.cons_append, ← heq], ?_, hpost⟩
      intro d hd
      rcases List.mem_cons.mp hd with rfl | hd'
      · have := foldl_keepMax_ge img l c
        omega
      · exact hpre d hd'
    · rw [show keepMax img b c = b from by unfold keepMax; rw [if_neg hlt]] at *
      match pre, heq with
      | [], heq =>
        have hr : l.foldl (keepMax img) b = b := by
          have := congrArg (fun t => t.headI) heq
          simpa using this.symm
        have hpost' : post = l := by
          have h2 := congrArg (fun t => t.tail) heq
          simpa using h2.symm
        refine ⟨[], c :: l, by rw [hr]; simp, by simp, ?_⟩
        intro d hd
        rcases List.mem_cons.mp hd with rfl | hd'
        · rw [hr]; omega
        · have h3 := hpost d (by rw [hpost']; exact hd')
          rw [hr] at h3 ⊢
          exact h3
      | p :: pre', heq =>
        have hp : p = b := by
          have := congrArg (fun t => t.headI) heq
          simpa using this.symm
        have hl : l = pre' ++ (l.foldl (keepMax img) b) :: post := by
          have h2 := congrArg (fun t => t.tail) heq
          simpa using h2
        refine ⟨b :: c :: pre', post, ?_, ?_, hpost⟩
        · rw [List.cons_append, List.cons_append, ← hl]
        · intro d hd
          rcases List.mem_cons.mp hd with rfl | hd'
          · have hb2 := hpre p (List.mem_cons_self _ _)
            rwa [hp] at hb2
          · rcases List.mem_cons.mp hd' with rfl | hd''
            · have hb2 := hpre p (List.mem_cons_self _ _)
              rw [hp] at hb2
              omega
            · exact hpre d (List.mem_cons_of_mem _ hd'')

theorem pickIntersection_cons (img : BitImage) (c : Int × Int)
    (rest : List (Int × Int)) :
    pickIntersection img (c :: rest) (0, 0) (-1) =
      if 5 ≤ convAt img c then c
      else pickIntersection img rest c (convAt img c : Int) := by
  simp only [pickIntersection]
  rw [show (if (-1 : Int) < (convAt img c : Int) then c else ((0, 0) : Int × Int)) = c from
    if_pos (by omega)]
  rw [show max (-1 : Int) (convAt img c : Int) = (convAt img c : Int) from by omega]
  by_cases hc : 5 ≤ convAt img c
  · rw [if_pos (by omega), if_pos hc]
  · rw [if_neg (by omega), if_neg hc]

theorem pickIntersection_first_argmax (img : BitImage) (c : Int × Int)
    (rest : List (Int × Int)) :
    ∃ pre post,
      truncAtConv img (c :: rest) =
        pre ++ (pickIntersection img (c :: rest) (0, 0) (-1)) :: post ∧
      (∀ d ∈ pre, convAt img d < convAt img (pickIntersection img (c :: rest) (0, 0) (-1))) ∧
      (∀ d ∈ post, convAt img d ≤ convAt img (pickIntersection img (c :: rest) (0, 0) (-1))) := by
  rw [pickIntersection_cons]
  by_cases hc : 5 ≤ convAt img c
  · rw [if_pos hc]
    simp only [truncAtConv]
    rw [if_pos hc]
    exact ⟨[], [], rfl, by simp, by simp⟩
  · rw [if_neg hc]
    simp only [truncAtConv]
    rw [if_neg hc, pickIntersection_eq_foldl img rest c (by omega)]
    exact foldl_keepMax_first_argmax img (truncAtConv img rest) c

/-- C3 (amended): when the frame is neither all-on nor all-off, a scan
producing exactly 2 segments collapses to the single two-pixel polyline of
the two frame midpoints, and the intersection-estimation step is applied
exactly when the number of scanned segments is **different from 2** (so also
when exactly 1 segment was produced, not only for 3 or more): every emitted
segment's second endpoint is replaced by the estimated intersection, which
is picked from the canvas sorted by Manhattan distance to the centre
(stable order) as the first pixel attaining the maximum 3×3 on-count among
the examined prefix, early-stopping at a count of at least 5. -/
theorem fitSegments_postprocessing (img : BitImage) (r0 c0 rows cols : Int)
    (hmix : ¬ (((frameOf r0 c0 rows cols).all fun pc => pixAt img pc) ∨
      ((frameOf r0 c0 rows cols).all fun pc => !pixAt img pc))) :
    ((scannedSegments img r0 c0 rows cols).length = 2 →
      fitSegments img r0 c0 rows cols =
        [[(scannedSegments img r0 c0 rows cols).headI.headI,
          (scannedSegments img r0 c0 rows cols).getLastI.headI]]) ∧
    ((scannedSegments img r0 c0 rows cols).length ≠ 2 →
      fitSegments img r0 c0 rows cols =
        (scannedSegments img r0 c0 rows cols).map fun pl =>
          pl.dropLast ++
            [estimateIntersection img r0 c0 rows cols (r0 + rows / 2, c0 + cols / 2)]) ∧
    (((sectPx (r0 + 1) (c0 + 1) (rows - 2) (cols - 2)).insertionSort fun a b =>
        manhattan a (r0 + rows / 2, c0 + cols / 2) ≤
          manhattan b (r0 + rows / 2, c0 + cols / 2)).Perm
      (sectPx (r0 + 1) (c0 + 1) (rows - 2) (cols - 2))) ∧
    (((sectPx (r0 + 1) (c0 + 1) (rows - 2) (cols - 2)).insertionSort fun a b =>
        manhattan a (r0 + rows / 2, c0 + cols / 2) ≤
          manhattan b (r0 + rows / 2, c0 + cols / 2)).Pairwise fun a b =>
      manhattan a (r0 + rows / 2, c0 + cols / 2) ≤
        manhattan b (r0 + rows / 2, c0 + cols / 2)) ∧
    (∀ c rest,
      ((sectPx (r0 + 1) (c0 + 1) (rows - 2) (cols - 2)).insertionSort fun a b =>
        manhattan a (r0 + rows / 2, c0 + cols / 2) ≤
          manhattan b (r0 + rows / 2, c0 + cols / 2)) = c :: rest →
      ∃ pre post,
        truncAtConv img (c :: rest) =
          pre ++ (estimateIntersection img r0 c0 rows cols
            (r0 + rows / 2, c0 + cols / 2)) :: post ∧
        (∀ d ∈ pre, convAt img d < convAt img (estimateIntersection img r0 c0 rows cols
          (r0 + rows / 2, c0 + cols / 2))) ∧
        (∀ d ∈ post, convAt img d ≤ convAt img (estimateIntersection img r0 c0 rows cols
          (r0 + rows / 2, c0 + cols / 2)))) := by
  refine ⟨?_, ?_, ?_, ?_, ?_⟩
  · intro h2
    simp only [fitSegments]
    rw [if_neg hmix, if_pos h2]
  · intro h2
    simp only [fitSegments]
    rw [if_neg hmix, if_neg h2]
  · exact List.perm_insertionSort _ _
  · haveI : IsTotal (Int × Int) (fun a b =>
        manhattan a (r0 + rows / 2, c0 + cols / 2) ≤
          manhattan b (r0 + rows / 2, c0 + cols / 2)) := ⟨fun a b => le_total _ _⟩
    haveI : IsTrans (Int × Int) (fun a b =>
        manhattan a (r0 + rows / 2, c0 + cols / 2) ≤
          manhattan b (r0 + rows / 2, c0 + cols / 2)) := ⟨fun a b c => le_trans⟩
    exact List.sorted_insertionSort _ _
  · intro c rest hcr
    have : estimateIntersection img r0 c0 rows cols (r0 + rows / 2, c0 + cols / 2) =
        pickIntersection img (c :: rest) (0, 0) (-1) := by
      rw [estimateIntersection]
      rw [hcr]
    rw [this]
    exact pickIntersection_first_argmax img c rest

/-- C3 witness: the amended post-processing theorem applied to the 3×3
cross. -/
theorem fitSegments_postprocessing_witness :
    (¬ (((frameOf 0 0 3 3).all fun pc => pixAt cross3 pc) ∨
      ((frameOf 0 0 3 3).all fun pc => !pixAt cross3 pc))) ∧
    ((scannedSegments cross3 0 0 3 3).length ≠ 2 →
      fitSegments cross3 0 0 3 3 =
        (scannedSegments cross3 0 0 3 3).map fun pl =>
          pl.dropLast ++
            [estimateIntersection cross3 0 0 3 3 (0 + 3 / 2, 0 + 3 / 2)]) :=
  ⟨by decide, (fitSegments_postprocessing cross3 0 0 3 3 (by decide)).2.1⟩

/-- C3 counterexample: on `imgC3` the frame scan produces exactly **one**
segment, yet the intersection-estimation step is applied: the segment's
second endpoint is replaced by the estimated intersection `(1,2)`, not the
centre `(2,2)` — so the estimation step is not applied "exactly when 3 or
more segments were produced". -/
theorem estimation_applied_with_one_segment :
    (scannedSegments imgC3 0 0 5 5).length = 1 ∧
    scannedSegments imgC3 0 0 5 5 = [[(0, 2), (2, 2)]] ∧
    fitSegments imgC3 0 0 5 5 = [[(0, 2), (1, 2)]] ∧
    ((1, 2) : Int × Int) ≠ (2, 2) := by
  decide

/-! ### Polyline merger (`PolylineFitting::mergePolylines`, §4.F, C2) -/

/-- `std::find_if` over the active source range, returning the index of the
first match. -/
def findIdxOpt {α : Type} (p : α → Bool) : List α → Option Nat
  | [] => none
  | a :: l => if p a then some 0 else (findIdxOpt p l).map fun i => i + 1

theorem findIdxOpt_some {α : Type} {p : α → Bool} (d : α) :
    ∀ {l : List α} {i : Nat}, findIdxOpt p l = some i →
      i < l.length ∧ p (l.getD i d) = true
  | [], i, h => by cases h
  | a :: l, i, h => by
    rw [findIdxOpt] at h
    by_cases hp : p a
    · rw [if_pos hp] at h
      obtain rfl := Option.some.inj h
      exact ⟨by simp, by simpa using hp⟩
    · rw [if_neg hp] at h
      match hfi : findIdxOpt p l with
      | none => rw [hfi] at h; cases h
      | some j =>
        rw [hfi] at h
        obtain rfl : j + 1 = i := by simpa using h
        have ih := findIdxOpt_some d hfi
        exact ⟨by simp; omega, by simpa using ih.2⟩

/-- `std::iter_swap(srcIt, --srcEnd)` followed by shrinking the active range:
the element at `i` is replaced by the last element, and the last position
leaves the active range. -/
def removeSwap (l : List (List (Int × Int))) (i : Nat) : List (List (Int × Int)) :=
  (l.set i l.getLastI).dropLast

theorem getLastI_cons_cons {α : Type} [Inhabited α] :
    ∀ (a b : α) (t : List α), (a :: b :: t).getLastI = (b :: t).getLastI
  | _, _, [] => rfl
  | _, _, [_] => rfl
  | _, _, c :: d :: t => getLastI_cons_cons c d t

theorem dropLast_append_getLastI {α : Type} [Inhabited α] :
    ∀ (s : List α), s ≠ [] → s.dropLast ++ [s.getLastI] = s
  | [], h => absurd rfl h
  | [_], _ => rfl
  | a :: b :: t, _ => by
    rw [show (a :: b :: t).dropLast = a :: (b :: t).dropLast from rfl,
      getLastI_cons_cons, List.cons_append,
      dropLast_append_getLastI (b :: t) (by simp)]

theorem headI_cons_drop {α : Type} [Inhabited α] :
    ∀ (s : List α), s ≠ [] → s.headI :: s.drop 1 = s
  | [], h => absurd rfl h
  | _ :: _, _ => rfl

theorem dropLast_cons_of_ne_nil {α : Type} (a : α) {M : List α} (h : M ≠ []) :
    (a :: M).dropLast = a :: M.dropLast := by
  match M, h with
  | _ :: _, _ => rfl

theorem removeSwap_cons_perm :
    ∀ (l : List (List (Int × Int))) (i : Nat), i < l.length →
      (l.getD i [] :: removeSwap l i).Perm l
  | [], i, hi => by simp at hi
  | a :: l, 0, _ => by
    match l with
    | [] => exact List.Perm.refl _
    | b :: l' =>
      rw [show (a :: b :: l').getD 0 [] = a from rfl, removeSwap,
        show (a :: b :: l').set 0 (a :: b :: l').getLastI =
          (a :: b :: l').getLastI :: b :: l' from rfl,
        getLastI_cons_cons,
        show ((b :: l').getLastI :: b :: l').dropLast =
          (b :: l').getLastI :: (b :: l').dropLast from rfl]
      refine List.Perm.cons a ?_
      have h4 := List.perm_append_singleton ((b :: l').getLastI) ((b :: l').dropLast)
      rw [dropLast_append_getLastI (b :: l') (by simp)] at h4
      exact h4.symm
  | a :: l, i + 1, hi => by
    match l, hi with
    | b :: t, hi =>
      have hlen : i < (b :: t).length := by
        simp only [List.length_cons] at hi ⊢
        omega
      have ih := removeSwap_cons_perm (b :: t) i hlen
      rw [show (a :: b :: t).getD (i + 1) [] = (b :: t).getD i [] from rfl, removeSwap,
        show (a :: b :: t).set (i + 1) (a :: b :: t).getLastI =
          a :: (b :: t).set i (a :: b :: t).getLastI from rfl,
        getLastI_cons_cons,
        dropLast_cons_of_ne_nil a (List.ne_nil_of_length_pos (by simp))]
      exact (List.Perm.swap a ((b :: t).getD i []) _).trans (List.Perm.cons a ih)

/-- One pass of the merger body for a single destination polyline
(`PolylineFitting.cpp` lines 237-283): the four endpoint matches are tried
in order over the whole active source range, the first match wins; the
matched source is spliced into the destination, dropping the one shared
boundary locator, and removed from the active range by swap-with-end.  The
third component records the dropped locator (ghost instrumentation). -/
def mergeOne (d : List (Int × Int)) (active : List (List (Int × Int))) :
    List (Int × Int) × List (List (Int × Int)) × List (Int × Int) :=
  match findIdxOpt (fun s => s.headI == d.headI) active with
  | some i =>
    let s := active.getD i []
    ((s.drop 1).reverse ++ d, removeSwap active i, [s.headI])
  | none =>
  match findIdxOpt (fun s => s.getLastI == d.headI) active with
  | some i =>
    let s := active.getD i []
    (s.dropLast ++ d, removeSwap active i, [s.getLastI])
  | none =>
  match findIdxOpt (fun s => s.headI == d.getLastI) active with
  | some i =>
    let s := active.getD i []
    (d ++ s.drop 1, removeSwap active i, [s.headI])
  | none =>
  match findIdxOpt (fun s => s.getLastI == d.getLastI) active with
  | some i =>
    let s := active.getD i []
    (d ++ s.dropLast.reverse, removeSwap active i, [s.getLastI])
  | none => (d, active, [])

/-- The destination loop of the merger: processed destinations, remaining
active sources, and all dropped boundary locators. -/
def mergeLoop :
    List (List (Int × Int)) → List (List (Int × Int)) →
      List (List (Int × Int)) × List (List (Int × Int)) × List (Int × Int)
  | [], active => ([], active, [])
  | d :: ds, active =>
    let r1 := mergeOne d active
    let r2 := mergeLoop ds r1.2.1
    (r1.1 :: r2.1, r2.2.1, r1.2.2 ++ r2.2.2)

/-- `PolylineFitting::mergePolylines` (lines 221-290) with the ghost list of
dropped boundary locators as second component: empty inputs short-circuit;
otherwise the destination loop runs and the unmerged sources are appended. -/
def mergePolylinesAux (destPolylines srcPolylines : List (List (Int × Int))) :
    List (List (Int × Int)) × List (Int × Int) :=
  if destPolylines = [] then (srcPolylines, [])
  else if srcPolylines = [] then (destPolylines, [])
  else
    let r := mergeLoop destPolylines srcPolylines
    (r.1 ++ r.2.1, r.2.2)

/-- `PolylineFitting::mergePolylines`, the returned polyline set. -/
def mergePolylines (destPolylines srcPolylines : List (List (Int × Int))) :
    List (List (Int × Int)) :=
  (mergePolylinesAux destPolylines srcPolylines).1

/-- Multiset of all pixel locators of a polyline set. -/
def pixelsOf (L : List (List (Int × Int))) : Multiset (Int × Int) :=
  (L.map Multiset.ofList).sum

theorem pixelsOf_nil : pixelsOf [] = 0 := rfl

theorem pixelsOf_cons (a : List (Int × Int)) (L : List (List (Int × Int))) :
    pixelsOf (a :: L) = (a : Multiset (Int × Int)) + pixelsOf L := by
  simp [pixelsOf]

theorem pixelsOf_append (L1 L2 : List (List (Int × Int))) :
    pixelsOf (L1 ++ L2) = pixelsOf L1 + pixelsOf L2 := by
  simp [pixelsOf]

theorem pixelsOf_perm {L1 L2 : List (List (Int × Int))} (h : L1.Perm L2) :
    pixelsOf L1 = pixelsOf L2 := by
  unfold pixelsOf
  exact List.Perm.sum_eq (h.map Multiset.ofList)

theorem coe_headI_drop {s : List (Int × Int)} (h : s ≠ []) :
    (s : Multiset (Int × Int)) = {s.headI} + ↑(s.drop 1) := by
  conv_lhs => rw [← headI_cons_drop s h]
  rw [← Multiset.cons_coe, ← Multiset.singleton_add]

theorem coe_dropLast_getLastI {s : List (Int × Int)} (h : s ≠ []) :
    (s : Multiset (Int × Int)) = ↑s.dropLast + {s.getLastI} := by
  conv_lhs => rw [← dropLast_append_getLastI s h]
  rw [← Multiset.coe_add, Multiset.coe_singleton]

theorem mergeOne_case_aux (active : List (List (Int × Int))) (i : Nat)
    (hi : i < active.length) :
    pixelsOf active =
        ((active.getD i []) : Multiset (Int × Int)) + pixelsOf (removeSwap active i) ∧
    ((removeSwap active i : Multiset (List (Int × Int))) ≤ ↑active) ∧
    (removeSwap active i).length + 1 = active.length ∧
    active.getD i [] ∈ active ∧
    (∀ s ∈ removeSwap active i, s ∈ active) := by
  have hperm := removeSwap_cons_perm active i hi
  refine ⟨?_, ?_, ?_, ?_, ?_⟩
  · rw [← pixelsOf_perm hperm, pixelsOf_cons]
  · have hco : (↑(active.getD i [] :: removeSwap active i) : Multiset (List (Int × Int))) =
        ↑active := Multiset.coe_eq_coe.mpr hperm
    calc (↑(removeSwap active i) : Multiset (List (Int × Int)))
        ≤ active.getD i [] ::ₘ ↑(removeSwap active i) := Multiset.le_cons_self _ _
      _ = ↑(active.getD i [] :: removeSwap active i) := Multiset.cons_coe _ _
      _ = ↑active := hco
  · have := hperm.length_eq
    simpa using this
  · exact hperm.mem_iff.mp (List.mem_cons_self _ _)
  · intro s hs
    exact hperm.mem_iff.mp (List.mem_cons_of_mem _ hs)

theorem mergeOne_eq1 {d : List (Int × Int)} {active : List (List (Int × Int))} {i : Nat}
    (h1 : findIdxOpt (fun s => s.headI == d.headI) active = some i) :
    mergeOne d active =
      (((active.getD i []).drop 1).reverse ++ d, removeSwap active i,
        [(active.getD i []).headI]) := by
  unfold mergeOne
  rw [h1]

theorem mergeOne_eq2 {d : List (Int × Int)} {active : List (List (Int × Int))} {i : Nat}
    (h1 : findIdxOpt (fun s => s.headI == d.headI) active = none)
    (h2 : findIdxOpt (fun s => s.getLastI == d.headI) active = some i) :
    mergeOne d active =
      ((active.getD i []).dropLast ++ d, removeSwap active i,
        [(active.getD i []).getLastI]) := by
  unfold mergeOne
  rw [h1, h2]

theorem mergeOne_eq3 {d : List (Int × Int)} {active : List (List (Int × Int))} {i : Nat}
    (h1 : findIdxOpt (fun s => s.headI == d.headI) active = none)
    (h2 : findIdxOpt (fun s => s.getLastI == d.headI) active = none)
    (h3 : findIdxOpt (fun s => s.headI == d.getLastI) active = some i) :
    mergeOne d active =
      (d ++ (active.getD i []).drop 1, removeSwap active i,
        [(active.getD i []).headI]) := by
  unfold mergeOne
  rw [h1, h2, h3]

theorem mergeOne_eq4 {d : List (Int × Int)} {active : List (List (Int × Int))} {i : Nat}
    (h1 : findIdxOpt (fun s => s.headI == d.headI) active = none)
    (h2 : findIdxOpt (fun s => s.getLastI == d.headI) active = none)
    (h3 : findIdxOpt (fun s => s.headI == d.getLastI) active = none)
    (h4 : findIdxOpt (fun s => s.getLastI == d.getLastI) active = some i) :
    mergeOne d active =
      (d ++ (active.getD i []).dropLast.reverse, removeSwap active i,
        [(active.getD i []).getLastI]) := by
  unfold mergeOne
  rw [h1, h2, h3, h4]

theorem mergeOne_eq5 {d : List (Int × Int)} {active : List (List (Int × Int))}
    (h1 : findIdxOpt (fun s => s.headI == d.headI) active = none)
    (h2 : findIdxOpt (fun s => s.getLastI == d.headI) active = none)
    (h3 : findIdxOpt (fun s => s.headI == d.getLastI) active = none)
    (h4 : findIdxOpt (fun s => s.getLastI == d.getLastI) active = none) :
    mergeOne d active = (d, active, []) := by
  unfold mergeOne
  rw [h1, h2, h3, h4]

theorem mergeOne_spec (d : List (Int × Int)) (active : List (List (Int × Int)))
    (hd : d ≠ []) (hact : ∀ s ∈ active, s ≠ []) :
    ((mergeOne d active).1 : Multiset (Int × Int)) + pixelsOf (mergeOne d active).2.1 +
        ((mergeOne d active).2.2 : Multiset (Int × Int)) =
      (d : Multiset (Int × Int)) + pixelsOf active ∧
    (mergeOne d active).1 ≠ [] ∧
    ((mergeOne d active).2.1 : Multiset (List (Int × Int))) ≤ ↑active ∧
    (mergeOne d active).2.1.length + (mergeOne d active).2.2.length = active.length ∧
    (∀ x ∈ (mergeOne d active).2.2, ∃ s ∈ active, x = s.headI ∨ x = s.getLastI) := by
  match hf1 : findIdxOpt (fun s => s.headI == d.headI) active with
  | some i =>
    obtain ⟨hi, _⟩ := findIdxOpt_some [] hf1
    obtain ⟨hpix, hle, hlen, hmem, _⟩ := mergeOne_case_aux active i hi
    have hsne := hact _ hmem
    rw [mergeOne_eq1 hf1]
    refine ⟨?_, by simp [hd], hle, by simp; omega, ?_⟩
    · show ↑(((active.getD i []).drop 1).reverse ++ d) + pixelsOf (removeSwap active i) +
          ↑[(active.getD i []).headI] = ↑d + pixelsOf active
      rw [hpix, coe_headI_drop hsne, ← Multiset.coe_add, Multiset.coe_reverse,
        Multiset.coe_singleton]
      abel
    · intro x hx
      refine ⟨active.getD i [], hmem, Or.inl ?_⟩
      simpa using hx
  | none =>
  match hf2 : findIdxOpt (fun s => s.getLastI == d.headI) active with
  | some i =>
    obtain ⟨hi, _⟩ := findIdxOpt_some [] hf2
    obtain ⟨hpix, hle, hlen, hmem, _⟩ := mergeOne_case_aux active i hi
    have hsne := hact _ hmem
    rw [mergeOne_eq2 hf1 hf2]
    refine ⟨?_, by simp [hd], hle, by simp; omega, ?_⟩
    · show ↑((active.getD i []).dropLast ++ d) + pixelsOf (removeSwap active i) +
          ↑[(active.getD i []).getLastI] = ↑d + pixelsOf active
      rw [hpix, coe_dropLast_getLastI hsne, ← Multiset.coe_add, Multiset.coe_singleton]
      abel
    · intro x hx
      refine ⟨active.getD i [], hmem, Or.inr ?_⟩
      simpa using hx
  | none =>
  match hf3 : findIdxOpt (fun s => s.headI == d.getLastI) active with
  | some i =>
    obtain ⟨hi, _⟩ := findIdxOpt_some [] hf3
    obtain ⟨hpix, hle, hlen, hmem, _⟩ := mergeOne_case_aux active i hi
    have hsne := hact _ hmem
    rw [mergeOne_eq3 hf1 hf2 hf3]
    refine ⟨?_, by simp [hd], hle, by simp; omega, ?_⟩
    · show ↑(d ++ (active.getD i []).drop 1) + pixelsOf (removeSwap active i) +
          ↑[(active.getD i []).headI] = ↑d + pixelsOf active
      rw [hpix, coe_headI_drop hsne, ← Multiset.coe_add, Multiset.coe_singleton]
      abel
    · intro x hx
      refine ⟨active.getD i [], hmem, Or.inl ?_⟩
      simpa using hx
  | none =>
  match hf4 : findIdxOpt (fun s => s.getLastI == d.getLastI) active with
  | some i =>
    obtain ⟨hi, _⟩ := findIdxOpt_some [] hf4
    obtain ⟨hpix, hle, hlen, hmem, _⟩ := mergeOne_case_aux active i hi
    have hsne := hact _ hmem
    rw [mergeOne_eq4 hf1 hf2 hf3 hf4]
    refine ⟨?_, by simp [hd], hle, by simp; omega, ?_⟩
    · show ↑(d ++ (active.getD i []).dropLast.reverse) + pixelsOf (removeSwap active i) +
          ↑[(active.getD i []).getLastI] = ↑d + pixelsOf active
      rw [hpix, coe_dropLast_getLastI hsne, ← Multiset.coe_add, Multiset.coe_reverse,
        Multiset.coe_singleton]
      abel
    · intro x hx
      refine ⟨active.getD i [], hmem, Or.inr ?_⟩
      simpa using hx
  | none =>
    rw [mergeOne_eq5 hf1 hf2 hf3 hf4]
    exact ⟨by simp, hd, le_rfl, by simp, by simp⟩

theorem mergeLoop_spec :
    ∀ (ds active : List (List (Int × Int))),
      (∀ p ∈ ds, p ≠ []) → (∀ s ∈ active, s ≠ []) →
      pixelsOf (mergeLoop ds active).1 + pixelsOf (mergeLoop ds active).2.1 +
          ((mergeLoop ds active).2.2 : Multiset (Int × Int)) =
        pixelsOf ds + pixelsOf active ∧
      (mergeLoop ds active).1.length = ds.length ∧
      ((mergeLoop ds active).2.1 : Multiset (List (Int × Int))) ≤ ↑active ∧
      (mergeLoop ds active).2.1.length + (mergeLoop ds active).2.2.length = active.length ∧
      (∀ x ∈ (mergeLoop ds active).2.2, ∃ s ∈ active, x = s.headI ∨ x = s.getLastI)
  | [], active, _, _ => by
    refine ⟨by simp [mergeLoop, pixelsOf_nil], rfl, le_rfl, by simp [mergeLoop], ?_⟩
    intro x hx
    simp [mergeLoop] at hx
  | d :: ds, active, hds, hact => by
    obtain ⟨h1, h2, h3, h4, h5⟩ :=
      mergeOne_spec d active (hds d (List.mem_cons_self _ _)) hact
    have hact' : ∀ s ∈ (mergeOne d active).2.1, s ≠ [] := fun s hs =>
      hact s (Multiset.mem_coe.mp (Multiset.mem_of_le h3 (Multiset.mem_coe.mpr hs)))
    obtain ⟨ih1, ih2, ih3, ih4, ih5⟩ :=
      mergeLoop_spec ds (mergeOne d active).2.1
        (fun p hp => hds p (List.mem_cons_of_mem _ hp)) hact'
    simp only [mergeLoop]
    refine ⟨?_, ?_, le_trans ih3 h3, ?_, ?_⟩
    · rw [pixelsOf_cons, pixelsOf_cons, ← Multiset.coe_add]
      calc ((mergeOne d active).1 : Multiset (Int × Int)) +
            pixelsOf (mergeLoop ds (mergeOne d active).2.1).1 +
            pixelsOf (mergeLoop ds (mergeOne d active).2.1).2.1 +
            (((mergeOne d active).2.2 : Multiset (Int × Int)) +
              ↑(mergeLoop ds (mergeOne d active).2.1).2.2) =
          (((mergeOne d active).1 : Multiset (Int × Int)) +
              ((mergeOne d active).2.2 : Multiset (Int × Int))) +
            (pixelsOf (mergeLoop ds (mergeOne d active).2.1).1 +
              pixelsOf (mergeLoop ds (mergeOne d active).2.1).2.1 +
              ↑(mergeLoop ds (mergeOne d active).2.1).2.2) := by abel
        _ = (((mergeOne d active).1 : Multiset (Int × Int)) +
              ((mergeOne d active).2.2 : Multiset (Int × Int))) +
            (pixelsOf ds + pixelsOf (mergeOne d active).2.1) := by rw [ih1]
        _ = (((mergeOne d active).1 : Multiset (Int × Int)) +
              pixelsOf (mergeOne d active).2.1 +
              ((mergeOne d active).2.2 : Multiset (Int × Int))) + pixelsOf ds := by abel
        _ = ((d : Multiset (Int × Int)) + pixelsOf active) + pixelsOf ds := by rw [h1]
        _ = pixelsOf (d :: ds) + pixelsOf active := by rw [pixelsOf_cons]; abel
    · simp [ih2]
    · simp only [List.length_append]
      omega
    · intro x hx
      rcases List.mem_append.mp hx with hx' | hx'
      · exact h5 x hx'
      · obtain ⟨s, hs, hse⟩ := ih5 x hx'
        exact ⟨s, Multiset.mem_coe.mp (Multiset.mem_of_le h3 (Multiset.mem_coe.mpr hs)), hse⟩

/-- C2: the merger conserves pixel locators: the multiset of locators of the
output, together with the dropped locators (exactly one shared boundary
locator per merge performed), equals the multiset of locators of `D` and
`S`; the output consists of the `|D|` processed destinations followed by
the unmerged source polylines, which appear unchanged (a sub-multiset of
`S`, one fewer per merge); and every dropped locator is an endpoint of a
source polyline. -/
theorem merger_pixel_conservation (D S : List (List (Int × Int)))
    (hDS : ∀ p ∈ D ++ S, p ≠ []) :
    pixelsOf (mergePolylines D S) + ((mergePolylinesAux D S).2 : Multiset (Int × Int)) =
      pixelsOf D + pixelsOf S ∧
    (mergePolylines D S).length + (mergePolylinesAux D S).2.length =
      D.length + S.length ∧
    (∃ ds rem, mergePolylines D S = ds ++ rem ∧ ds.length = D.length ∧
      ((rem : Multiset (List (Int × Int))) ≤ ↑S) ∧
      rem.length + (mergePolylinesAux D S).2.length = S.length) ∧
    (∀ x ∈ (mergePolylinesAux D S).2, ∃ s ∈ S, x = s.headI ∨ x = s.getLastI) := by
  have hD : ∀ p ∈ D, p ≠ [] := fun p hp => hDS p (List.mem_append.mpr (Or.inl hp))
  have hS : ∀ p ∈ S, p ≠ [] := fun p hp => hDS p (List.mem_append.mpr (Or.inr hp))
  by_cases hDe : D = []
  · subst hDe
    refine ⟨?_, ?_, ⟨[], S, ?_, rfl, le_rfl, ?_⟩, ?_⟩ <;>
      simp [mergePolylines, mergePolylinesAux, pixelsOf_nil]
  · by_cases hSe : S = []
    · subst hSe
      rw [show mergePolylines D [] = D from by
            simp [mergePolylines, mergePolylinesAux, hDe],
          show (mergePolylinesAux D []).2 = [] from by
            simp [mergePolylinesAux, hDe]]
      refine ⟨by simp [pixelsOf_nil], by simp, ⟨D, [], by simp, rfl, le_rfl, by simp⟩, ?_⟩
      intro x hx
      simp at hx
    · obtain ⟨h1, h2, h3, h4, h5⟩ := mergeLoop_spec D S hD hS
      rw [show mergePolylines D S = (mergeLoop D S).1 ++ (mergeLoop D S).2.1 from by
            simp [mergePolylines, mergePolylinesAux, hDe, hSe],
          show (mergePolylinesAux D S).2 = (mergeLoop D S).2.2 from by
            simp [mergePolylinesAux, hDe, hSe]]
      refine ⟨?_, ?_, ⟨(mergeLoop D S).1, (mergeLoop D S).2.1, rfl, h2, h3, h4⟩, h5⟩
      · rw [pixelsOf_append]
        exact h1
      · simp only [List.length_append]
        omega

/-- C2 witness: the conservation theorem applied to the boundary scenario of
spec §8, scenario 6: `D = {[a,b,c]}`, `S = {[c,d,e]}` merge to
`[a,b,c,d,e]` with the shared `c` dropped once. -/
theorem merger_pixel_conservation_witness :
    (∀ p ∈ ([[((0 : Int), (0 : Int)), (0, 1), (0, 2)]] ++
        [[((0 : Int), (2 : Int)), (1, 2), (2, 2)]]), p ≠ []) ∧
    (pixelsOf (mergePolylines [[((0 : Int), (0 : Int)), (0, 1), (0, 2)]]
          [[((0 : Int), (2 : Int)), (1, 2), (2, 2)]]) +
        ((mergePolylinesAux [[((0 : Int), (0 : Int)), (0, 1), (0, 2)]]
          [[((0 : Int), (2 : Int)), (1, 2), (2, 2)]]).2 : Multiset (Int × Int)) =
      pixelsOf [[((0 : Int), (0 : Int)), (0, 1), (0, 2)]] +
        pixelsOf [[((0 : Int), (2 : Int)), (1, 2), (2, 2)]]) ∧
    mergePolylines [[((0 : Int), (0 : Int)), (0, 1), (0, 2)]]
        [[((0 : Int), (2 : Int)), (1, 2), (2, 2)]] =
      [[(0, 0), (0, 1), (0, 2), (1, 2), (2, 2)]] :=
  ⟨by decide,
    (merger_pixel_conservation _ _ (by decide)).1,
    by decide⟩

/-! ### The recursive tracer (`PolylineFitting::fitPolylines`, §4.E, C5/C8) -/

theorem rowSplitOf_bounds (img : BitImage) (r0 c0 rows cols : Int) (h5 : 5 ≤ rows) :
    r0 + 2 ≤ rowSplitOf img r0 c0 rows cols ∧
      rowSplitOf img r0 c0 rows cols ≤ r0 + rows - 3 := by
  match hc : splitCands r0 rows with
  | [] =>
    have hlen : (splitCands r0 rows).length = (rows - 4).toNat := by simp [splitCands]
    rw [hc] at hlen
    simp at hlen
    omega
  | c :: rest =>
    have hmem := splitGo_mem_of_none (fun r => countOn img r c0 1 cols) c rest (-1)
    rw [← hc] at hmem
    exact splitCands_bounds h5 hmem

theorem colSplitOf_bounds (img : BitImage) (r0 c0 rows cols : Int) (h5 : 5 ≤ cols) :
    c0 + 2 ≤ colSplitOf img r0 c0 rows cols ∧
      colSplitOf img r0 c0 rows cols ≤ c0 + cols - 3 := by
  match hc : splitCands c0 cols with
  | [] =>
    have hlen : (splitCands c0 cols).length = (cols - 4).toNat := by simp [splitCands]
    rw [hc] at hlen
    simp at hlen
    omega
  | c :: rest =>
    have hmem := splitGo_mem_of_none (fun cc => countOn img r0 cc rows 1) c rest (-1)
    rw [← hc] at hmem
    exact splitCands_bounds h5 hmem

theorem sect_nonempty_bounds {img : BitImage} {r0 c0 rows cols : Int}
    (h : ¬ (sectPx r0 c0 rows cols).all fun pc => !pixAt img pc) :
    0 < rows ∧ 0 < cols := by
  by_contra hcon
  push_neg at hcon
  apply h
  rw [List.all_eq_true]
  intro x hx
  have := mem_sectPx.mp hx
  exact absurd this (by omega)

/-- The recursive tracer `PolylineFitting::fitPolylines` (lines 48-118):
end recursion on an all-off section; delegate to the leaf fitter when the
recursion budget is exhausted or the section is smaller than the split
bound on both axes; otherwise split along the row (if `rows >= cols`) or
column of least on-pixel density closest to the centre and merge the two
recursive results. -/
def fitPolylinesRec (img : BitImage) (r0 c0 rows cols : Int) (iter : Nat)
    (minSS : Int) (maxRec : Nat) : List (List (Int × Int)) :=
  if hne : (sectPx r0 c0 rows cols).all fun pc => !pixAt img pc then []
  else
    if hleaf : maxRec ≤ iter ∨ (cols < max minSS 5 ∧ rows < max minSS 5) then
      fitSegments img r0 c0 rows cols
    else
      if hax : rows ≥ cols then
        mergePolylines
          (fitPolylinesRec img r0 c0 (rowSplitOf img r0 c0 rows cols - r0 + 1) cols
            (iter + 1) minSS maxRec)
          (fitPolylinesRec img (rowSplitOf img r0 c0 rows cols) c0
            (r0 + rows - rowSplitOf img r0 c0 rows cols) cols (iter + 1) minSS maxRec)
      else
        mergePolylines
          (fitPolylinesRec img r0 c0 rows (colSplitOf img r0 c0 rows cols - c0 + 1)
            (iter + 1) minSS maxRec)
          (fitPolylinesRec img r0 (colSplitOf img r0 c0 rows cols) rows
            (c0 + cols - colSplitOf img r0 c0 rows cols) (iter + 1) minSS maxRec)
termination_by (rows + cols).toNat
decreasing_by
  · have hb := sect_nonempty_bounds hne
    have h5 : 5 ≤ rows := by omega
    have hsb := rowSplitOf_bounds img r0 c0 rows cols h5
    omega
  · have hb := sect_nonempty_bounds hne
    have h5 : 5 ≤ rows := by omega
    have hsb := rowSplitOf_bounds img r0 c0 rows cols h5
    omega
  · have hb := sect_nonempty_bounds hne
    have h5 : 5 ≤ cols := by omega
    have hsb := colSplitOf_bounds img r0 c0 rows cols h5
    omega
  · have hb := sect_nonempty_bounds hne
    have h5 : 5 ≤ cols := by omega
    have hsb := colSplitOf_bounds img r0 c0 rows cols h5
    omega

/-- `std::numeric_limits<int32_t>::max()`, the recursion bound used when the
caller passes `maxRecursions = 0`. -/
def int32Max : Nat := 2147483647

/-- The warning emitted for an image smaller than 3×3. -/
def smallImageWarning : String :=
  "Impossible to fit polylines to an image smaller than minimum size of 3x3!"

/-- The public entry point `PolylineFitting::fitPolylines` (lines 14-46),
returning the polylines and the list of diagnostic warnings emitted.  The
guard compares the (non-negative) image dimensions against the minimum size
3; on failure it warns and returns no polylines, without thinning or
tracing.  Otherwise the image is optionally thinned, traced from the full
section, and the pixel locators are translated to coordinates (`coords` is
the identity on numeric locators). -/
def fitPolylinesEntry (img : BitImage) (minSectionSize : Nat) (maxRecursions : Nat)
    (doThinning : Bool) : List (List (Int × Int)) × List String :=
  if img.rows < 3 ∨ img.cols < 3 then
    ([], [smallImageWarning])
  else
    let image := if doThinning then thinImage img else img
    let pxPolylines :=
      fitPolylinesRec image 0 0 image.rows image.cols 0
        (max (minSectionSize : Int) 3)
        (if maxRecursions ≠ 0 then maxRecursions else int32Max)
    (pxPolylines.map fun pl => pl.map fun px => px, [])

/-- C8: for an image with fewer than 3 rows or fewer than 3 columns (the
dimensions being non-negative, as guaranteed at construction), the entry
point returns no polylines and the small-image warning, independently of
the pixel contents, of `doThinning` and of the other parameters — neither
the thinner nor the tracer contributes to the result. -/
theorem small_image_guard (img : BitImage) (minSectionSize maxRecursions : Nat)
    (doThinning : Bool) (h0r : 0 ≤ img.rows) (h0c : 0 ≤ img.cols)
    (hsmall : img.rows < 3 ∨ img.cols < 3) :
    fitPolylinesEntry img minSectionSize maxRecursions doThinning =
      ([], [smallImageWarning]) := by
  unfold fitPolylinesEntry
  rw [if_pos hsmall]

/-- C8 witness: the guard theorem applied to an all-on 2×2 image. -/
theorem small_image_guard_witness :
    ((0 : Int) ≤ 2 ∧ (0 : Int) ≤ 2 ∧ ((2 : Int) < 3 ∨ (2 : Int) < 3)) ∧
    fitPolylinesEntry ⟨2, 2, fun _ _ => true⟩ 3 0 true = ([], [smallImageWarning]) :=
  ⟨by decide,
    small_image_guard ⟨2, 2, fun _ _ => true⟩ 3 0 true (by decide) (by decide)
      (by decide)⟩

/-- The call tree of the recursive tracer: `Calls img minSS maxRec r0 c0 rows
cols iter t1 t2 t3 t4 t5` holds when the recursion started at section
`(r0, c0, rows, cols)` with depth `iter` reaches a recursive invocation on
section `(t1, t2, t3, t4)` at depth `t5`.  The side conditions of each
constructor are exactly the branch conditions of `fitPolylinesRec`
(non-empty section, split branch taken, axis choice), and the child
sections are exactly the ones `fitPolylinesRec` recurses on. -/
inductive Calls (img : BitImage) (minSS : Int) (maxRec : Nat) :
    Int → Int → Int → Int → Nat → Int → Int → Int → Int → Nat → Prop
  | refl (r0 c0 rows cols : Int) (iter : Nat) :
      Calls img minSS maxRec r0 c0 rows cols iter r0 c0 rows cols iter
  | rowTop (r0 c0 rows cols t1 t2 t3 t4 : Int) (iter t5 : Nat)
      (hne : ¬ (sectPx r0 c0 rows cols).all fun pc => !pixAt img pc)
      (hsplit : ¬ (maxRec ≤ iter ∨ (cols < max minSS 5 ∧ rows < max minSS 5)))
      (hax : rows ≥ cols)
      (h : Calls img minSS maxRec r0 c0 (rowSplitOf img r0 c0 rows cols - r0 + 1)
        cols (iter + 1) t1 t2 t3 t4 t5) :
      Calls img minSS maxRec r0 c0 rows cols iter t1 t2 t3 t4 t5
  | rowBottom (r0 c0 rows cols t1 t2 t3 t4 : Int) (iter t5 : Nat)
      (hne : ¬ (sectPx r0 c0 rows cols).all fun pc => !pixAt img pc)
      (hsplit : ¬ (maxRec ≤ iter ∨ (cols < max minSS 5 ∧ rows < max minSS 5)))
      (hax : rows ≥ cols)
      (h : Calls img minSS maxRec (rowSplitOf img r0 c0 rows cols) c0
        (r0 + rows - rowSplitOf img r0 c0 rows cols) cols (iter + 1) t1 t2 t3 t4 t5) :
      Calls img minSS maxRec r0 c0 rows cols iter t1 t2 t3 t4 t5
  | colLeft (r0 c0 rows cols t1 t2 t3 t4 : Int) (iter t5 : Nat)
      (hne : ¬ (sectPx r0 c0 rows cols).all fun pc => !pixAt img pc)
      (hsplit : ¬ (maxRec ≤ iter ∨ (cols < max minSS 5 ∧ rows < max minSS 5)))
      (hax : ¬ rows ≥ cols)
      (h : Calls img minSS maxRec r0 c0 rows (colSplitOf img r0 c0 rows cols - c0 + 1)
        (iter + 1) t1 t2 t3 t4 t5) :
      Calls img minSS maxRec r0 c0 rows cols iter t1 t2 t3 t4 t5
  | colRight (r0 c0 rows cols t1 t2 t3 t4 : Int) (iter t5 : Nat)
      (hne : ¬ (sectPx r0 c0 rows cols).all fun pc => !pixAt img pc)
      (hsplit : ¬ (maxRec ≤ iter ∨ (cols < max minSS 5 ∧ rows < max minSS 5)))
      (hax : ¬ rows ≥ cols)
      (h : Calls img minSS maxRec r0 (colSplitOf img r0 c0 rows cols) rows
        (c0 + cols - colSplitOf img r0 c0 rows cols) (iter + 1) t1 t2 t3 t4 t5) :
      Calls img minSS maxRec r0 c0 rows cols iter t1 t2 t3 t4 t5

/-- C5: a row split shares exactly the split line between the two halves
(the two heights sum to `rows + 1`, the top half ends and the bottom half
begins at `rSplit`), each half has at least 3 rows (and symmetrically for
column splits); consequently every section reached by the recursion from a
root of at least 3×3 — in particular every section handed to the leaf
fitter `fitSegments` — is at least 3×3. -/
theorem split_halves_at_least_3x3 (img : BitImage) (minSS : Int) (maxRec : Nat) :
    (∀ r0 c0 rows cols : Int, 3 ≤ rows → 3 ≤ cols → rows ≥ cols → 5 ≤ rows →
      r0 + 2 ≤ rowSplitOf img r0 c0 rows cols ∧
      rowSplitOf img r0 c0 rows cols ≤ r0 + rows - 3 ∧
      (rowSplitOf img r0 c0 rows cols - r0 + 1) +
        (r0 + rows - rowSplitOf img r0 c0 rows cols) = rows + 1 ∧
      r0 + (rowSplitOf img r0 c0 rows cols - r0 + 1) - 1 = rowSplitOf img r0 c0 rows cols ∧
      3 ≤ rowSplitOf img r0 c0 rows cols - r0 + 1 ∧
      3 ≤ r0 + rows - rowSplitOf img r0 c0 rows cols) ∧
    (∀ r0 c0 rows cols : Int, 3 ≤ rows → 3 ≤ cols → ¬ rows ≥ cols → 5 ≤ cols →
      c0 + 2 ≤ colSplitOf img r0 c0 rows cols ∧
      colSplitOf img r0 c0 rows cols ≤ c0 + cols - 3 ∧
      (colSplitOf img r0 c0 rows cols - c0 + 1) +
        (c0 + cols - colSplitOf img r0 c0 rows cols) = cols + 1 ∧
      c0 + (colSplitOf img r0 c0 rows cols - c0 + 1) - 1 = colSplitOf img r0 c0 rows cols ∧
      3 ≤ colSplitOf img r0 c0 rows cols - c0 + 1 ∧
      3 ≤ c0 + cols - colSplitOf img r0 c0 rows cols) ∧
    (∀ r0 c0 rows cols t1 t2 t3 t4 : Int, ∀ iter t5 : Nat,
      Calls img minSS maxRec r0 c0 rows cols iter t1 t2 t3 t4 t5 →
      3 ≤ rows → 3 ≤ cols → 3 ≤ t3 ∧ 3 ≤ t4) := by
  refine ⟨?_, ?_, ?_⟩
  · intro r0 c0 rows cols h3r h3c hax h5
    have hsb := rowSplitOf_bounds img r0 c0 rows cols h5
    omega
  · intro r0 c0 rows cols h3r h3c hax h5
    have hsb := colSplitOf_bounds img r0 c0 rows cols h5
    omega
  · intro r0 c0 rows cols t1 t2 t3 t4 iter t5 hcall
    induction hcall with
    | refl r0 c0 rows cols iter =>
      intro h3r h3c
      exact ⟨h3r, h3c⟩
    | rowTop r0 c0 rows cols t1 t2 t3 t4 iter t5 hne hsplit hax h ih =>
      intro h3r h3c
      have h5 : 5 ≤ rows := by omega
      have hsb := rowSplitOf_bounds img r0 c0 rows cols h5
      exact ih (by omega) h3c
    | rowBottom r0 c0 rows cols t1 t2 t3 t4 iter t5 hne hsplit hax h ih =>
      intro h3r h3c
      have h5 : 5 ≤ rows := by omega
      have hsb := rowSplitOf_bounds img r0 c0 rows cols h5
      exact ih (by omega) h3c
    | colLeft r0 c0 rows cols t1 t2 t3 t4 iter t5 hne hsplit hax h ih =>
      intro h3r h3c
      have h5 : 5 ≤ cols := by omega
      have hsb := colSplitOf_bounds img r0 c0 rows cols h5
      exact ih h3r (by omega)
    | colRight r0 c0 rows cols t1 t2 t3 t4 iter t5 hne hsplit hax h ih =>
      intro h3r h3c
      have h5 : 5 ≤ cols := by omega
      have hsb := colSplitOf_bounds img r0 c0 rows cols h5
      exact ih h3r (by omega)

/-- C5 witness: the invariant applied at the root call on the 3×3 cross, and
the split geometry applied to the 5×5 example image. -/
theorem split_halves_at_least_3x3_witness :
    ((3 : Int) ≤ 3 ∧ (3 : Int) ≤ 3) ∧
    ((0 : Int) + 2 ≤ rowSplitOf imgC3 0 0 5 5 ∧
      rowSplitOf imgC3 0 0 5 5 ≤ 0 + 5 - 3 ∧
      (rowSplitOf imgC3 0 0 5 5 - 0 + 1) + (0 + 5 - rowSplitOf imgC3 0 0 5 5) = 5 + 1 ∧
      0 + (rowSplitOf imgC3 0 0 5 5 - 0 + 1) - 1 = rowSplitOf imgC3 0 0 5 5 ∧
      (3 : Int) ≤ rowSplitOf imgC3 0 0 5 5 - 0 + 1 ∧
      (3 : Int) ≤ 0 + 5 - rowSplitOf imgC3 0 0 5 5) :=
  ⟨(split_halves_at_least_3x3 cross3 3 0).2.2 0 0 3 3 0 0 3 3 0 0
      (Calls.refl 0 0 3 3 0) (by decide) (by decide),
    (split_halves_at_least_3x3 imgC3 3 0).1 0 0 5 5 (by decide) (by decide)
      (by decide) (by decide)⟩

/-- A `TFloat` value: `nan`, a signed infinity (`true` = negative), or a
finite (exact rational) value. -/
inductive QF : Type
  | nan : QF
  | inf : Bool → QF
  | val : ℚ → QF
deriving DecidableEq

namespace QF

def sub : QF → QF → QF
  | nan, _ => nan
  | _, nan => nan
  | inf s, inf t => if s = t then nan else inf s
  | inf s, val _ => inf s
  | val _, inf t => inf (!t)
  | val a, val b => val (a - b)

def add : QF → QF → QF
  | nan, _ => nan
  | _, nan => nan
  | inf s, inf t => if s = t then inf s else nan
  | inf s, val _ => inf s
  | val _, inf t => inf t
  | val a, val b => val (a + b)

def mul : QF → QF → QF
  | nan, _ => nan
  | _, nan => nan
  | inf s, inf t => inf (xor s t)
  | inf s, val b => if b = 0 then nan else inf (xor s (decide (b < 0)))
  | val a, inf t => if a = 0 then nan else inf (xor (decide (a < 0)) t)
  | val a, val b => val (a * b)

def div : QF → QF → QF
  | nan, _ => nan
  | _, nan => nan
  | inf _, inf _ => nan
  | inf s, val b => inf (xor s (decide (b < 0)))
  | val _, inf _ => val 0
  | val a, val b =>
    if b = 0 then (if a = 0 then nan else inf (decide (a < 0))) else val (a / b)

def abs : QF → QF
  | nan => nan
  | inf _ => inf false
  | val a => val |a|

/-- IEEE `<`: false whenever an operand is `nan`. -/
def lt : QF → QF → Bool
  | nan, _ => false
  | _, nan => false
  | inf s, inf t => s && !t
  | inf s, val _ => s
  | val _, inf t => !t
  | val a, val b => decide (a < b)

def isInf : QF → Bool
  | inf _ => true
  | _ => false

end QF

/-- `FittingUtils::fuzzyCompare` with its default tolerance `1e-9`, on
extended values (used on the slope). -/
def fuzzyCompareF (a b : QF) : Bool :=
  QF.lt (QF.abs (QF.sub a b)) (QF.val (1 / 1000000000))

/-- `FittingUtils::fuzzyCompare` on finite values. -/
def fuzzyCompare (a b : ℚ) : Bool := decide (|a - b| < 1 / 1000000000)

/-- `FittingUtils::arePointsEqual`. -/
def arePointsEqual (pointA pointB : ℚ × ℚ) : Bool :=
  fuzzyCompare pointA.1 pointB.1 && fuzzyCompare pointA.2 pointB.2

/-- `FittingUtils::computeSlope`: `nan` for (fuzzily) equal points, `±inf`
when the denominator `B.x - A.x` is exactly zero (IEEE division), the
finite slope otherwise. -/
def computeSlope (pointA pointB : ℚ × ℚ) : QF :=
  if arePointsEqual pointA pointB then QF.nan
  else if pointB.1 = pointA.1 then QF.inf (decide (pointB.2 - pointA.2 < 0))
  else QF.val ((pointB.2 - pointA.2) / (pointB.1 - pointA.1))

/-- `FittingUtils::computePointProjectionOnLine` (slope/offset overload). -/
def computePointProjectionOnLine (point : ℚ × ℚ) (slope offset : QF) : QF × QF :=
  if fuzzyCompareF slope (QF.val 0) then (QF.val point.1, offset)
  else if QF.isInf slope then (offset, QF.val point.2)
  else
    let counterSlope := QF.div (QF.val (-1)) slope
    let counterOffset := QF.sub (QF.val point.2) (QF.mul (QF.val point.1) counterSlope)
    let x := QF.div (QF.sub offset counterOffset) (QF.sub counterSlope slope)
    let y := QF.add (QF.mul counterSlope x) counterOffset
    (x, y)

/-- `FittingUtils::computeSquaredDistanceToPoint` on finite points. -/
def computeSquaredDistanceToPoint (pointA pointB : ℚ × ℚ) : ℚ :=
  (pointA.1 - pointB.1) ^ 2 + (pointA.2 - pointB.2) ^ 2

/-- `FittingUtils::computeSquaredDistanceToSegment`: project onto the line;
if the projection lies strictly between the segment endpoints' x
coordinates, the distance to the projection, else the distance to the
nearer endpoint. -/
def computeSquaredDistanceToSegment (point pointA pointB : ℚ × ℚ) : QF :=
  let slope := computeSlope pointA pointB
  let offset := if QF.isInf slope then QF.val pointA.1
    else QF.sub (QF.val pointA.2) (QF.mul (QF.val pointA.1) slope)
  let proj := computePointProjectionOnLine point slope offset
  let sqToLine := QF.add
    (QF.mul (QF.sub (QF.val point.1) proj.1) (QF.sub (QF.val point.1) proj.1))
    (QF.mul (QF.sub (QF.val point.2) proj.2) (QF.sub (QF.val point.2) proj.2))
  if QF.lt (QF.val (min pointA.1 pointB.1)) proj.1 &&
      QF.lt proj.1 (QF.val (max pointA.1 pointB.1)) then sqToLine
  else QF.val (min (computeSquaredDistanceToPoint point pointA)
    (computeSquaredDistanceToPoint point pointB))

/-! ### `FittingUtils::simplifyPolyline` (C9)

The iterator range `[first, last)` over a mutable container is modelled as a
total array `arr : Nat → α` together with index bounds `lo ≤ hi`; iterator
reads/writes become reads/updates of the array; `get2DCoords` is the
`coords` parameter. -/

/-- The segment of an array between two indices, as a list. -/
def extract {α : Type} (f : Nat → α) (a b : Nat) : List α :=
  (List.range (b - a)).map fun t => f (a + t)

/-- `std::iter_swap`. -/
def swapArr {α : Type} (arr : Nat → α) (i j : Nat) : Nat → α :=
  fun k => if k = i then arr j else if k = j then arr i else arr k

/-- The compaction loop of `simplifyPolyline` (`FittingUtilsImpl.hpp` lines
137-141): `while (pt != pointB) iter_swap(pointA++, pt++)`; the loop
variable `pt` starts at `pointFurthest + 1 ≤ pointB`, so the guard is
equivalently `pt < pointB`. -/
def compactLoop {α : Type} (arr : Nat → α) (a pt b : Nat) : (Nat → α) × Nat :=
  if pt < b then compactLoop (swapArr arr a pt) (a + 1) (pt + 1) b else (arr, a)
termination_by b - pt

/-- The squared distance of the array element at `j` to the segment between
the elements at `lo` and `hi - 1` (the comparator of the `max_element`
call, `FittingUtilsImpl.hpp` lines 122-125). -/
def distToBase {α : Type} (coords : α → ℚ × ℚ) (arr : Nat → α) (lo hi j : Nat) : QF :=
  computeSquaredDistanceToSegment (coords (arr j)) (coords (arr lo)) (coords (arr (hi - 1)))

/-- `std::max_element(next(pointA), pointB, cmp)`: the first element of
`[lo+1, hi-1)` attaining the maximum distance (the running best is replaced
only when the comparator holds strictly). -/
def maxDistIdx {α : Type} (coords : α → ℚ × ℚ) (arr : Nat → α) (lo hi : Nat) : Nat :=
  ((List.range (hi - 1 - (lo + 1))).map fun t => lo + 1 + t).foldl
    (fun best j => if QF.lt (distToBase coords arr lo hi best) (distToBase coords arr lo hi j)
      then j else best) (lo + 1)

theorem foldl_choice_mem (P : Nat → Nat → Bool) :
    ∀ (l : List Nat) (b : Nat),
      l.foldl (fun best j => if P best j then j else best) b ∈ b :: l
  | [], b => List.mem_cons_self _ _
  | c :: l, b => by
    rw [List.foldl_cons]
    rcases List.mem_cons.mp (foldl_choice_mem P l (if P b c then c else b)) with h | h
    · rw [h]
      split
      · exact List.mem_cons_of_mem _ (List.mem_cons_self _ _)
      · exact List.mem_cons_self _ _
    · exact List.mem_cons_of_mem _ (List.mem_cons_of_mem _ h)

theorem maxDistIdx_bounds {α : Type} (coords : α → ℚ × ℚ) (arr : Nat → α)
    (lo hi : Nat) (h3 : lo + 3 ≤ hi) :
    lo + 1 ≤ maxDistIdx coords arr lo hi ∧ maxDistIdx coords arr lo hi ≤ hi - 2 := by
  have hmem := foldl_choice_mem
    (fun best j => QF.lt (distToBase coords arr lo hi best) (distToBase coords arr lo hi j))
    ((List.range (hi - 1 - (lo + 1))).map fun t => lo + 1 + t) (lo + 1)
  rw [show (((List.range (hi - 1 - (lo + 1))).map fun t => lo + 1 + t).foldl
      (fun best j => if QF.lt (distToBase coords arr lo hi best)
        (distToBase coords arr lo hi j) then j else best) (lo + 1)) =
      maxDistIdx coords arr lo hi from rfl] at hmem
  rcases List.mem_cons.mp hmem with h | h
  · omega
  · obtain ⟨t, ht, he⟩ := List.mem_map.mp h
    rw [List.mem_range] at ht
    omega

/-- `FittingUtils::simplifyPolyline` (`FittingUtilsImpl.hpp` lines 110-150)
on the array model, with an explicit structural recursion depth: returns
the updated array and the split index (the returned iterator).  Base cases
(fewer than 3 points, equal first/last values, non-positive epsilon) keep
everything; otherwise the farthest vertex from the base segment either
splits the range (recurse right, then left, then compact the kept right
part after the kept left part) or, when within tolerance, only the two
endpoints are kept.  Each recursive call shrinks `hi - lo` by at least one
(the farthest index lies in `[lo+1, hi-2]`), so any `fuel ≥ hi - lo`
reproduces the source's recursion exactly; the fuel-0 fallback is never
reached from `simpAux`, which supplies `fuel = hi - lo`. -/
def simpAuxF {α : Type} [DecidableEq α] (coords : α → ℚ × ℚ) (eps : ℚ) :
    Nat → (Nat → α) → Nat → Nat → (Nat → α) × Nat
  | 0, arr, _, hi => (arr, hi)
  | fuel + 1, arr, lo, hi =>
    if hi - lo < 3 ∨ arr lo = arr (hi - 1) ∨ eps ≤ 0 then (arr, hi)
    else
      let f := maxDistIdx coords arr lo hi
      if QF.lt (QF.val (eps ^ 2)) (distToBase coords arr lo hi f) then
        let r1 := simpAuxF coords eps fuel arr f hi
        let r2 := simpAuxF coords eps fuel r1.1 lo (f + 1)
        compactLoop r2.1 r2.2 (f + 1) r1.2
      else
        (swapArr arr (hi - 1) (lo + 1), lo + 2)

/-- `FittingUtils::simplifyPolyline` itself: run the recursion with enough
fuel for the whole range. -/
def simpAux {α : Type} [DecidableEq α] (coords : α → ℚ × ℚ) (eps : ℚ)
    (arr : Nat → α) (lo hi : Nat) : (Nat → α) × Nat :=
  simpAuxF coords eps (hi - lo) arr lo hi

theorem extract_cons {α : Type} (f : Nat → α) (a b : Nat) (h : a < b) :
    extract f a b = f a :: extract f (a + 1) b := by
  unfold extract
  rw [show b - a = (b - (a + 1)) + 1 from by omega, List.range_succ_eq_map, List.map_cons]
  congr 1
  rw [List.map_map]
  apply List.map_congr_left
  intro t _
  show f (a + (t + 1)) = f (a + 1 + t)
  congr 1
  omega

theorem extract_self {α : Type} (f : Nat → α) (a : Nat) : extract f a a = [] := by
  unfold extract
  rw [Nat.sub_self]
  rfl

theorem extract_append {α : Type} (f : Nat → α) :
    ∀ (k a m b : Nat), m - a = k → a ≤ m → m ≤ b →
      extract f a b = extract f a m ++ extract f m b
  | 0, a, m, b, hk, h1, h2 => by
    obtain rfl : a = m := by omega
    rw [extract_self, List.nil_append]
  | k + 1, a, m, b, hk, h1, h2 => by
    have ham : a < m := by omega
    rw [extract_cons f a b (by omega), extract_cons f a m ham, List.cons_append]
    congr 1
    exact extract_append f k (a + 1) m b (by omega) (by omega) h2

theorem mem_extract {α : Type} (f : Nat → α) {a b j : Nat} (h1 : a ≤ j) (h2 : j < b) :
    f j ∈ extract f a b := by
  unfold extract
  exact List.mem_map.mpr ⟨j - a, by rw [List.mem_range]; omega, by congr 1; omega⟩

theorem extract_congr {α : Type} {f g : Nat → α} {a b : Nat}
    (h : ∀ j, a ≤ j → j < b → f j = g j) : extract f a b = extract g a b := by
  unfold extract
  apply List.map_congr_left
  intro t ht
  rw [List.mem_range] at ht
  exact h (a + t) (by omega) (by omega)

theorem extract_shift {α : Type} (f g : Nat → α) (a c L : Nat)
    (h : ∀ k, k < L → f (a + k) = g (c + k)) :
    extract f a (a + L) = extract g c (c + L) := by
  unfold extract
  rw [show a + L - a = L from by omega, show c + L - c = L from by omega]
  apply List.map_congr_left
  intro t ht
  rw [List.mem_range] at ht
  exact h t ht

theorem compactLoop_spec {α : Type} :
    ∀ (L : Nat) (arr : Nat → α) (a pt b : Nat), b - pt = L → a ≤ pt →
      (compactLoop arr a pt b).2 = a + (b - pt) ∧
      (∀ k, k < b - pt → (compactLoop arr a pt b).1 (a + k) = arr (pt + k)) ∧
      (∀ j, j < a ∨ b ≤ j → (compactLoop arr a pt b).1 j = arr j)
  | 0, arr, a, pt, b, hL, hapt => by
    rw [compactLoop, if_neg (by omega)]
    exact ⟨by omega, fun k hk => by omega, fun j _ => rfl⟩
  | L + 1, arr, a, pt, b, hL, hapt => by
    rw [compactLoop, if_pos (by omega)]
    obtain ⟨ih1, ih2, ih3⟩ :=
      compactLoop_spec L (swapArr arr a pt) (a + 1) (pt + 1) b (by omega) (by omega)
    refine ⟨by omega, ?_, ?_⟩
    · intro k hk
      match k with
      | 0 =>
        show (compactLoop (swapArr arr a pt) (a + 1) (pt + 1) b).1 a = arr pt
        rw [ih3 a (Or.inl (by omega))]
        unfold swapArr
        rw [if_pos rfl]
      | kk + 1 =>
        show (compactLoop (swapArr arr a pt) (a + 1) (pt + 1) b).1 (a + (kk + 1)) =
          arr (pt + (kk + 1))
        rw [show a + (kk + 1) = (a + 1) + kk from by omega, ih2 kk (by omega)]
        unfold swapArr
        rw [if_neg (by omega), if_neg (by omega)]
        congr 1
        omega
    · intro j hj
      rw [ih3 j (by omega)]
      unfold swapArr
      rw [if_neg (by omega), if_neg (by omega)]

theorem simpAuxF_base {α : Type} [DecidableEq α] (coords : α → ℚ × ℚ) (eps : ℚ)
    (fuel : Nat) (arr : Nat → α) (lo hi : Nat)
    (h : hi - lo < 3 ∨ arr lo = arr (hi - 1) ∨ eps ≤ 0) :
    simpAuxF coords eps (fuel + 1) arr lo hi = (arr, hi) := by
  rw [simpAuxF, if_pos h]

theorem simpAuxF_split {α : Type} [DecidableEq α] (coords : α → ℚ × ℚ) (eps : ℚ)
    (fuel : Nat) (arr : Nat → α) (lo hi : Nat)
    (h : ¬ (hi - lo < 3 ∨ arr lo = arr (hi - 1) ∨ eps ≤ 0))
    (h2 : QF.lt (QF.val (eps ^ 2))
      (distToBase coords arr lo hi (maxDistIdx coords arr lo hi)) = true) :
    simpAuxF coords eps (fuel + 1) arr lo hi =
      compactLoop
        (simpAuxF coords eps fuel
          (simpAuxF coords eps fuel arr (maxDistIdx coords arr lo hi) hi).1
          lo (maxDistIdx coords arr lo hi + 1)).1
        (simpAuxF coords eps fuel
          (simpAuxF coords eps fuel arr (maxDistIdx coords arr lo hi) hi).1
          lo (maxDistIdx coords arr lo hi + 1)).2
        (maxDistIdx coords arr lo hi + 1)
        (simpAuxF coords eps fuel arr (maxDistIdx coords arr lo hi) hi).2 := by
  rw [simpAuxF, if_neg h]
  simp only [h2, if_true]

theorem simpAuxF_keepEnds {α : Type} [DecidableEq α] (coords : α → ℚ × ℚ) (eps : ℚ)
    (fuel : Nat) (arr : Nat → α) (lo hi : Nat)
    (h : ¬ (hi - lo < 3 ∨ arr lo = arr (hi - 1) ∨ eps ≤ 0))
    (h2 : ¬ QF.lt (QF.val (eps ^ 2))
      (distToBase coords arr lo hi (maxDistIdx coords arr lo hi)) = true) :
    simpAuxF coords eps (fuel + 1) arr lo hi =
      (swapArr arr (hi - 1) (lo + 1), lo + 2) := by
  rw [simpAuxF, if_neg h]
  exact if_neg h2

theorem simpAuxF_spec {α : Type} [DecidableEq α] (coords : α → ℚ × ℚ) (eps : ℚ) :
    ∀ (fuel : Nat) (arr : Nat → α) (lo hi : Nat), hi - lo ≤ fuel →
      (hi ≤ lo ∨ lo + 1 ≤ (simpAuxF coords eps fuel arr lo hi).2) ∧
      (simpAuxF coords eps fuel arr lo hi).2 ≤ hi ∧
      (∀ j, j ≤ lo ∨ hi ≤ j → (simpAuxF coords eps fuel arr lo hi).1 j = arr j) ∧
      List.Sublist
        (extract (simpAuxF coords eps fuel arr lo hi).1 lo
          (simpAuxF coords eps fuel arr lo hi).2)
        (extract arr lo hi) ∧
      (lo + 2 ≤ hi → arr (hi - 1) ∈
        extract (simpAuxF coords eps fuel arr lo hi).1 lo
          (simpAuxF coords eps fuel arr lo hi).2)
  | 0, arr, lo, hi, hfl => by
    refine ⟨Or.inl (by omega), Nat.le_refl hi, fun j _ => rfl, List.Sublist.refl _,
      fun h => absurd h (by omega)⟩
  | fuel + 1, arr, lo, hi, hfl => by
    by_cases hbase : hi - lo < 3 ∨ arr lo = arr (hi - 1) ∨ eps ≤ 0
    · rw [simpAuxF_base coords eps fuel arr lo hi hbase]
      refine ⟨?_, Nat.le_refl hi, fun j _ => rfl, List.Sublist.refl _, fun h => ?_⟩
      · show hi ≤ lo ∨ lo + 1 ≤ hi
        omega
      · show arr (hi - 1) ∈ extract arr lo hi
        exact mem_extract arr (by omega) (by omega)
    · have hlen : 3 ≤ hi - lo := by
        by_contra hc
        exact hbase (Or.inl (by omega))
      by_cases hfar : QF.lt (QF.val (eps ^ 2))
          (distToBase coords arr lo hi (maxDistIdx coords arr lo hi)) = true
      · rw [simpAuxF_split coords eps fuel arr lo hi hbase hfar]
        obtain ⟨hb1, hb2⟩ := maxDistIdx_bounds coords arr lo hi (by omega)
        set f := maxDistIdx coords arr lo hi with hf
        have H1 := simpAuxF_spec coords eps fuel arr f hi (by omega)
        set r1 := simpAuxF coords eps fuel arr f hi with hr1
        obtain ⟨h11, h12, h13, h14, h15⟩ := H1
        have H2 := simpAuxF_spec coords eps fuel r1.1 lo (f + 1) (by omega)
        set r2 := simpAuxF coords eps fuel r1.1 lo (f + 1) with hr2
        obtain ⟨h21, h22, h23, h24, h25⟩ := H2
        have hb1' : f + 1 ≤ r1.2 := h11.resolve_left (by omega)
        have hb2' : lo + 1 ≤ r2.2 := h21.resolve_left (by omega)
        obtain ⟨hc1, hc2, hc3⟩ :=
          compactLoop_spec (r1.2 - (f + 1)) r2.1 r2.2 (f + 1) r1.2 rfl (by omega)
        have e1 : extract (compactLoop r2.1 r2.2 (f + 1) r1.2).1 lo
            (compactLoop r2.1 r2.2 (f + 1) r1.2).2 =
            extract (compactLoop r2.1 r2.2 (f + 1) r1.2).1 lo r2.2 ++
            extract (compactLoop r2.1 r2.2 (f + 1) r1.2).1 r2.2
              (compactLoop r2.1 r2.2 (f + 1) r1.2).2 :=
          extract_append _ (r2.2 - lo) lo r2.2 _ rfl (by omega) (by omega)
        have e2 : extract (compactLoop r2.1 r2.2 (f + 1) r1.2).1 lo r2.2 =
            extract r2.1 lo r2.2 :=
          extract_congr fun j _ hj2 => hc3 j (Or.inl hj2)
        have e5 : extract (compactLoop r2.1 r2.2 (f + 1) r1.2).1 r2.2
            (r2.2 + (r1.2 - (f + 1))) =
            extract r1.1 (f + 1) ((f + 1) + (r1.2 - (f + 1))) :=
          extract_shift _ r1.1 r2.2 (f + 1) (r1.2 - (f + 1)) fun k hk => by
            rw [hc2 k hk]
            exact h23 ((f + 1) + k) (Or.inr (by omega))
        rw [show (f + 1) + (r1.2 - (f + 1)) = r1.2 from by omega, ← hc1] at e5
        have e4 : extract r1.1 lo (f + 1) = extract arr lo (f + 1) :=
          extract_congr fun j _ hj2 => h13 j (Or.inl (by omega))
        rw [e4] at h24
        have e6 : List.Sublist (extract r1.1 (f + 1) r1.2) (extract arr (f + 1) hi) := by
          rw [extract_cons r1.1 f r1.2 (by omega), extract_cons arr f hi (by omega),
            h13 f (Or.inl (Nat.le_refl f))] at h14
          exact List.cons_sublist_cons.mp h14
        refine ⟨Or.inr (by omega), by omega, ?_, ?_, ?_⟩
        · intro j hj
          rw [hc3 j (by omega), h23 j (by omega)]
          exact h13 j (by omega)
        · rw [e1, e2, e5,
            extract_append arr (f + 1 - lo) lo (f + 1) hi rfl (by omega) (by omega)]
          exact List.Sublist.append h24 e6
        · intro hlo2
          have h15' := h15 (by omega)
          rw [extract_cons r1.1 f r1.2 (by omega)] at h15'
          have h25' := h25 (by omega)
          rw [show f + 1 - 1 = f from by omega] at h25'
          rw [e1]
          rcases List.mem_cons.mp h15' with hhd | htl
          · apply List.mem_append_left
            rw [e2, hhd]
            exact h25'
          · apply List.mem_append_right
            rw [e5]
            exact htl
      · rw [simpAuxF_keepEnds coords eps fuel arr lo hi hbase hfar]
        have hx : extract (swapArr arr (hi - 1) (lo + 1)) lo (lo + 2) =
            [arr lo, arr (hi - 1)] := by
          rw [extract_cons _ lo (lo + 2) (by omega),
            extract_cons _ (lo + 1) (lo + 2) (by omega), extract_self]
          simp only [swapArr]
          rw [if_neg (by omega), if_neg (by omega), if_neg (by omega), if_pos trivial]
        refine ⟨Or.inr (show lo + 1 ≤ lo + 2 from by omega),
          show lo + 2 ≤ hi from by omega, ?_, ?_, fun h => ?_⟩
        · intro j hj
          show swapArr arr (hi - 1) (lo + 1) j = arr j
          simp only [swapArr]
          rw [if_neg (by omega), if_neg (by omega)]
        · show List.Sublist (extract (swapArr arr (hi - 1) (lo + 1)) lo (lo + 2))
            (extract arr lo hi)
          rw [hx, extract_cons arr lo hi (by omega)]
          exact List.cons_sublist_cons.mpr
            (List.singleton_sublist.mpr (mem_extract arr (by omega) (by omega)))
        · show arr (hi - 1) ∈ extract (swapArr arr (hi - 1) (lo + 1)) lo (lo + 2)
          rw [hx]
          exact List.mem_cons_of_mem _ (List.mem_cons_self _ _)

/-- **C9**: `simplifyPolyline` keeps, as the prefix `[lo, result)` of the
array, a subsequence of the input points in their original relative order;
when the range has at least two points and epsilon is positive the kept
prefix contains both the first point (`arr lo`) and the last point
(`arr (hi-1)`); and in the base cases (fewer than 3 points, coincident
endpoints, or non-positive epsilon) it returns the end of the range with
the array untouched. -/
theorem simplifyPolyline_structure {α : Type} [DecidableEq α]
    (coords : α → ℚ × ℚ) (eps : ℚ) (arr : Nat → α) (lo hi : Nat) :
    List.Sublist
      (extract (simpAux coords eps arr lo hi).1 lo (simpAux coords eps arr lo hi).2)
      (extract arr lo hi) ∧
    (lo + 2 ≤ hi → 0 < eps →
      arr lo ∈ extract (simpAux coords eps arr lo hi).1 lo
        (simpAux coords eps arr lo hi).2 ∧
      arr (hi - 1) ∈ extract (simpAux coords eps arr lo hi).1 lo
        (simpAux coords eps arr lo hi).2) ∧
    ((hi - lo < 3 ∨ arr lo = arr (hi - 1) ∨ eps ≤ 0) →
      simpAux coords eps arr lo hi = (arr, hi)) := by
  obtain ⟨h1, h2, h3, h4, h5⟩ :=
    simpAuxF_spec coords eps (hi - lo) arr lo hi (Nat.le_refl _)
  refine ⟨?_, ?_, ?_⟩
  · simp only [simpAux]
    exact h4
  · intro hl _
    constructor
    · simp only [simpAux]
      have hfix : (simpAuxF coords eps (hi - lo) arr lo hi).1 lo = arr lo :=
        h3 lo (Or.inl (Nat.le_refl lo))
      rw [← hfix]
      have hlt := h1.resolve_left (by omega)
      exact mem_extract _ (Nat.le_refl lo) (by omega)
    · simp only [simpAux]
      exact h5 hl
  · intro hb
    simp only [simpAux]
    rcases Nat.eq_zero_or_pos (hi - lo) with h0 | h0
    · rw [h0]
      rfl
    · obtain ⟨n, hn⟩ := Nat.exists_eq_succ_of_ne_zero (show hi - lo ≠ 0 by omega)
      rw [hn]
      exact simpAuxF_base coords eps n arr lo hi hb

/-- Concrete point type for exercising `simplifyPolyline`: points are
rationals placed on the x axis. -/
def coordsW : ℚ → ℚ × ℚ := fun q => (q, 0)

/-- A concrete point array. -/
def arrW : Nat → ℚ := fun i => (i : ℚ)

theorem simplifyPolyline_structure_witness :
    (0 + 2 ≤ 3 ∧ (0 : ℚ) < 1 ∧
      (arrW 0 ∈ extract (simpAux coordsW 1 arrW 0 3).1 0 (simpAux coordsW 1 arrW 0 3).2 ∧
       arrW (3 - 1) ∈ extract (simpAux coordsW 1 arrW 0 3).1 0
         (simpAux coordsW 1 arrW 0 3).2)) ∧
    ((2 - 0 < 3 ∨ arrW 0 = arrW (2 - 1) ∨ (1 : ℚ) ≤ 0) ∧
      simpAux coordsW 1 arrW 0 2 = (arrW, 2)) :=
  ⟨⟨by decide, by norm_num,
    (simplifyPolyline_structure coordsW 1 arrW 0 3).2.1 (by decide) (by norm_num)⟩,
   ⟨Or.inl (by decide),
    (simplifyPolyline_structure coordsW 1 arrW 0 2).2.2 (Or.inl (by decide))⟩⟩

end Fitting
